import Mathlib

/-!
Verification of the goof Brainfuck VM (single-file Go implementation).

The development shallowly embeds the three stages of the `execute`
function: the regex-driven source rewriting (normalizer and idiom
recognizer), the single-pass compiler with offset mode and brace-stack
loop linking, and the fuel-based interpreter over the instruction
vector.  Go regexp `ReplaceAll` calls are modelled as left-to-right
scanners implementing exactly the leftmost, greedy matching behaviour
of each concrete pattern.  Go byte arithmetic is modelled as Nat with
explicit mod-256 wrapping; Go slice accesses carry explicit bounds
checks whose failure is a `panicked` outcome (an unrecovered runtime
panic terminating the process); `string(b)` conversion of a byte to a
string is modelled by its UTF-8 encoding, as in Go.
-/

namespace Goof

/-- Byte-cell arithmetic: Go `byte(int(cell) + d)` truncates to the low
8 bits, i.e. mathematical mod 256 (also for negative sums). -/
def byteAdd (v : Nat) (d : Int) : Nat := (((v : Int) + d) % 256).toNat

/-- Go `string(b)` for a byte value encodes the code point in UTF-8:
one byte below 0x80, two bytes otherwise.  This is what
`fmt.Print(strings.Repeat(string(cell), n))` sends to the sink. -/
def utf8Bytes (v : Nat) : List Nat :=
  if v < 128 then [v] else [192 + v / 64, 128 + v % 64]

/-- Instruction kinds, as the constants in the source. -/
inductive IKind where
  | ADD_SUB : IKind
  | PTR_MOV : IKind
  | JMP_ZER : IKind
  | JMP_NOT_ZER : IKind
  | PUT_CHR : IKind
  | RAD_CHR : IKind
  | CLR : IKind
  | MUL_CPY : IKind
  | SCN_RGT : IKind
  | SCN_LFT : IKind
deriving DecidableEq, Repr

/-- The `Instruction` struct (`Type` is a Lean keyword, so the field is
called `typ`). -/
structure Instruction where
  typ : IKind
  Data : Int
  AuxData : Int
  Offset : Int
deriving DecidableEq, Repr

instance : Inhabited Instruction := ⟨⟨.ADD_SUB, 0, 0, 0⟩⟩

/-! ## Character classes used by the rewrite passes -/

def isPM (c : Char) : Bool := c == '+' || c == '-'

def isGL (c : Char) : Bool := c == '>' || c == '<'

def isPMC (c : Char) : Bool := c == '+' || c == '-' || c == 'C'

def isRL (c : Char) : Bool := c == 'R' || c == 'L'

def isCRL (c : Char) : Bool := c == 'C' || c == 'R' || c == 'L'

def isDot (c : Char) : Bool := c == '.'

def isMv (c : Char) : Bool := c == '<' || c == '>'

def isPlus (c : Char) : Bool := c == '+'

/-- The eight-symbol program alphabet. -/
def bfChars : List Char := ['+', '-', '>', '<', '.', ',', '[', ']']

/-! ## Source normalizer -/

/-- Pass removing every byte outside the eight-symbol alphabet
(the regex replacing the complement class with the empty string). -/
def stripPass (l : List Char) : List Char := l.filter (fun c => bfChars.contains c)

/-- The `processBalanced` helper of the source: emit the signed net of a
run of two cancelling characters. -/
def processBalanced (s : List Char) (c1 c2 : Char) : List Char :=
  let total : Int := (s.count c1 : Int) - (s.count c2 : Int)
  if 0 < total then List.replicate total.toNat c1
  else if total < 0 then List.replicate (-total).toNat c2
  else []

/-- NOP-removal pass: every maximal run of the class `p` is replaced by
its net balance (runs of length one are their own net, so the `{2,}` in
the Go regexes makes no observable difference).  The first argument is
fuel; any fuel at least the input length gives the pass's value (all
recursion in this development is structural on such a fuel so that the
kernel can evaluate the definitions on concrete programs). -/
def nopPass (p : Char → Bool) (c1 c2 : Char) : Nat → List Char → List Char
  | _, [] => []
  | 0, _ :: _ => []
  | n + 1, c :: cs =>
    if p c then
      processBalanced ((c :: cs).takeWhile p) c1 c2 ++
        nopPass p c1 c2 n ((c :: cs).dropWhile p)
    else c :: nopPass p c1 c2 n cs

/-- The full normalizer: strip comments, collapse `+`/`-` runs, collapse
`>`/`<` runs (in the source's order). -/
def preprocess (l : List Char) : List Char :=
  nopPass isGL '>' '<' (nopPass isPM '+' '-' (stripPass l).length (stripPass l)).length
    (nopPass isPM '+' '-' (stripPass l).length (stripPass l))

/-! ## Weighted character counts -/

/-- Sum of the weights `w` over a string; all the character counts
below are instances. -/
def countW (w : Char → Nat) (l : List Char) : Nat := (l.map w).sum

def wLB (c : Char) : Nat := if c = '[' then 1 else 0

def wR (c : Char) : Nat := if c = 'R' then 1 else 0

def wL (c : Char) : Nat := if c = 'L' then 1 else 0

def wRL (c : Char) : Nat := wR c + wL c

def wP (c : Char) : Nat := if c = 'P' then 1 else 0

def wPH (c : Char) : Nat := if c = 'C' ∨ c = 'R' ∨ c = 'L' ∨ c = 'P' then 1 else 0

def wGt (c : Char) : Nat := if c = '>' then 1 else 0

def wLt (c : Char) : Nat := if c = '<' then 1 else 0

/-! ## Bracket defect

A fold computing, over the bracket characters of a string, the number
of unmatched closing brackets and the number of unmatched opening
brackets (all other characters are ignored). -/

def dfStep (a : Nat × Nat) (c : Char) : Nat × Nat :=
  if c = '[' then (a.1, a.2 + 1)
  else if c = ']' then (if a.2 = 0 then (a.1 + 1, 0) else (a.1, a.2 - 1))
  else a

def dfFold (l : List Char) (a : Nat × Nat) : Nat × Nat := l.foldl dfStep a

/-- The bracket defect of a string: (unmatched closers, unmatched
openers).  A string has an unmatched bracket iff its defect is not
(0, 0). -/
def defect (l : List Char) : Nat × Nat := dfFold l (0, 0)

/-! ## Idiom recognizer

Each Go `ReplaceAll` over a concrete pattern becomes a left-to-right
scanner that at every position either recognizes the (forced, greedy)
match of that pattern and rewrites it, or copies one character and
moves on — exactly the leftmost matching discipline of `regexp`.  The
scanners share the `rewritePass` driver; each pattern supplies a
matcher returning the replacement text, the side-table entries the
match records, and the rest of the input after the match. -/

/-- Generic scanner for a `ReplaceAll`: at each position try the
matcher; on a match emit its replacement, record its side-table
entries, and continue after the match, otherwise copy one character.
Fuel at least the input length gives the pass's value whenever the
matcher's rest is always shorter than its input. -/
def rewritePass {κ : Type} (m : List Char → Option (List Char × List κ × List Char)) :
    Nat → List Char → List κ → List Char × List κ
  | _, [], acc => ([], acc)
  | 0, _ :: _, acc => ([], acc)
  | n + 1, c :: cs, acc =>
    match m (c :: cs) with
    | some x =>
      let r := rewritePass m n x.2.2 (acc ++ x.2.1)
      (x.1 ++ r.1, r.2)
    | none =>
      let r := rewritePass m n cs acc
      (c :: r.1, r.2)

/-! ### Clear-loop fusion: pattern `[C+-]*(?:\[[+-]+\])+\.*` replaced by `C` -/

/-- Recognize one clearing group `\[[+-]+\]` at the head; return the
rest after it. -/
def groupSplit : List Char → Option (List Char)
  | '[' :: t =>
    if (t.takeWhile isPM).isEmpty then none
    else
      match t.dropWhile isPM with
      | ']' :: r => some r
      | _ => none
  | _ => none

/-- Greedy recognizer for `(?:\[[+-]+\])+`: one or more clearing
groups; returns the rest after the last one.  Fuel at least the input
length gives the recognizer's value. -/
def clearGroups : Nat → List Char → Option (List Char)
  | 0, _ => none
  | n + 1, l =>
    match groupSplit l with
    | some r =>
      match clearGroups n r with
      | some r2 => some r2
      | none => some r
    | none => none

/-- Matcher for the clear-loop pattern `[C+-]*(?:\[[+-]+\])+\.*`: the
maximal `[C+-]` prefix is forced, then at least one clearing group,
then the maximal dot run; the whole match is replaced by `C`. -/
def clearMatcher (l : List Char) : Option (List Char × List Nat × List Char) :=
  match clearGroups (l.dropWhile isPMC).length (l.dropWhile isPMC) with
  | some r => some (['C'], [], r.dropWhile isDot)
  | none => none

/-! ### Scan-loop fusion: `\[>+\]` becomes `R`, `\[<+\]` becomes `L`,
recording the stride in the shared side table -/

def scanMatcher (d o : Char) (l : List Char) : Option (List Char × List Nat × List Char) :=
  match l with
  | '[' :: t =>
    if ((t.takeWhile fun c => c == d).isEmpty) then none
    else
      match t.dropWhile (fun c => c == d) with
      | ']' :: r => some ([o], [(t.takeWhile fun c => c == d).length], r)
      | _ => none
  | _ => none

def scanRMatcher : List Char → Option (List Char × List Nat × List Char) := scanMatcher '>' 'R'

def scanLMatcher : List Char → Option (List Char × List Nat × List Char) := scanMatcher '<' 'L'

/-! ### Known-zero elimination: `[RL]+C|[CRL]+\.+` removed -/

def kzAlt2 (l : List Char) : Option (List Char × List Nat × List Char) :=
  if (l.takeWhile isCRL).isEmpty then none
  else
    if ((l.dropWhile isCRL).takeWhile isDot).isEmpty then none
    else some ([], [], (l.dropWhile isCRL).dropWhile isDot)

def kzMatcher (l : List Char) : Option (List Char × List Nat × List Char) :=
  if (l.takeWhile isRL).isEmpty then kzAlt2 l
  else
    match l.dropWhile isRL with
    | 'C' :: t1 => some ([], [], t1)
    | _ => kzAlt2 l

/-! ### Stdin-overwrite elimination: `[+-C]+,` becomes `,` -/

def stdinMatcher (l : List Char) : Option (List Char × List Nat × List Char) :=
  if (l.takeWhile isPMC).isEmpty then none
  else
    match l.dropWhile isPMC with
    | ',' :: t2 => some ([','], [], t2)
    | _ => none

/-! ### Copy/multiply-loop fusion:
`\[-(?:[<>]+\++)+[<>]+\]|\[(?:[<>]+\++)+[<>]+-\]` -/

/-- The terminator characters of the two alternatives: `]` after the
final move run, or `-]` for the second pattern. -/
def termChars (alt2 : Bool) : List Char := if alt2 then ['-', ']'] else [']']

/-- Consume the terminator. -/
def termSplit : Bool → List Char → Option (List Char)
  | false, ']' :: rr => some rr
  | true, '-' :: ']' :: rr => some rr
  | _, _ => none

/-- Greedy parser for the loop body after the opening (and, in the
first alternative, the `-`): one-or-more segments of a nonempty move
run followed by a nonempty `+` run, then a final nonempty move run and
the terminator.  Greediness is forced: runs are maximal and a
terminator never starts with `+`.  Returns the consumed body, the
(gt, lt, plus) counts of each segment, the (gt, lt) counts of the
final move run, and the rest. -/
def segsParse (alt2 : Bool) : Nat → List Char →
    Option (List Char × List (Nat × Nat × Nat) × (Nat × Nat) × List Char)
  | 0, _ => none
  | n + 1, l =>
    if (l.takeWhile isMv).isEmpty then none
    else
      if (((l.dropWhile isMv).takeWhile isPlus).isEmpty) then
        match termSplit alt2 (l.dropWhile isMv) with
        | some rr =>
          some (l.takeWhile isMv ++ termChars alt2, [],
            (countW wGt (l.takeWhile isMv), countW wLt (l.takeWhile isMv)), rr)
        | none => none
      else
        match segsParse alt2 n ((l.dropWhile isMv).dropWhile isPlus) with
        | some (body, segs, fin, rr) =>
          some (l.takeWhile isMv ++ (l.dropWhile isMv).takeWhile isPlus ++ body,
            (countW wGt (l.takeWhile isMv), countW wLt (l.takeWhile isMv),
              ((l.dropWhile isMv).takeWhile isPlus).length) :: segs, fin, rr)
        | none => none

/-- Cumulative target offsets paired with the multipliers, exactly as
the Go callback accumulates `offset` over the `[<>]+\++` segments. -/
def segPairs : List (Nat × Nat × Nat) → Int → List (Int × Nat)
  | [], _ => []
  | (g, lt, p) :: rest, acc =>
    (acc + (g : Int) - (lt : Int), p) :: segPairs rest (acc + (g : Int) - (lt : Int))

/-- Matcher for the copy/multiply-loop patterns.  A balanced match is
replaced by one `P` per segment and a trailing `C`, recording
cumulative offsets and multipliers; an unbalanced match is kept
verbatim (and scanning resumes after it, as `ReplaceAll` does). -/
def copyMatcher (l : List Char) : Option (List Char × List (Int × Nat) × List Char) :=
  match l with
  | '[' :: '-' :: t2 =>
    match segsParse false t2.length t2 with
    | some (body, segs, fin, rest) =>
      if segs.isEmpty then none
      else if (segs.map fun s => s.1).sum + fin.1 = (segs.map fun s => s.2.1).sum + fin.2 then
        some (List.replicate segs.length 'P' ++ ['C'], segPairs segs 0, rest)
      else some ('[' :: '-' :: body, [], rest)
    | none => none
  | '[' :: t =>
    match segsParse true t.length t with
    | some (body, segs, fin, rest) =>
      if segs.isEmpty then none
      else if (segs.map fun s => s.1).sum + fin.1 = (segs.map fun s => s.2.1).sum + fin.2 then
        some (List.replicate segs.length 'P' ++ ['C'], segPairs segs 0, rest)
      else some ('[' :: body, [], rest)
    | none => none
  | _ => none

/-! ### The passes and the optimizer driver -/

def clearPass (l : List Char) : List Char :=
  (rewritePass clearMatcher l.length l []).1

def scanPassR (l : List Char) (m : List Nat) : List Char × List Nat :=
  rewritePass scanRMatcher l.length l m

def scanPassL (l : List Char) (m : List Nat) : List Char × List Nat :=
  rewritePass scanLMatcher l.length l m

def kzPass (l : List Char) : List Char :=
  (rewritePass kzMatcher l.length l []).1

def stdinPass (l : List Char) : List Char :=
  (rewritePass stdinMatcher l.length l []).1

def copyPass (l : List Char) : List Char × List (Int × Nat) :=
  rewritePass copyMatcher l.length l []

/-- Result of the rewriting stage: the rewritten code over the extended
alphabet and the three side tables consumed in order by the compiler. -/
structure OptResult where
  code : List Char
  scanMap : List Nat
  copyMap : List Int
  copyMul : List Nat
deriving DecidableEq, Repr

/-- The whole source-rewriting stage of `execute`: the two NOP passes
always run; with `optimize` the idiom passes run once, in the source's
order (clear-loops, right scans, left scans, known-zero elimination,
stdin-overwrite elimination, copy-loops). -/
def goofOptimize (raw : List Char) (optimize : Bool) : OptResult :=
  if optimize then
    let p1 := clearPass (preprocess raw)
    let p2 := scanPassR p1 []
    let p3 := scanPassL p2.1 p2.2
    let p4 := kzPass p3.1
    let p5 := stdinPass p4
    let p6 := copyPass p5
    ⟨p6.1, p3.2, p6.2.map (fun x => x.1), p6.2.map (fun x => x.2)⟩
  else ⟨preprocess raw, [], [], []⟩

/-! ## Compiler -/

/-- Result of compilation: the two distinguishing bracket errors
(return codes 1 and 2 of the Go `execute`), a Go runtime panic from a
side-table index out of range, or the instruction vector. -/
inductive CompOut where
  | errClose : CompOut
  | errOpen : CompOut
  | panicC : CompOut
  | ok : List Instruction → CompOut
deriving DecidableEq, Repr

/-- The `fold` helper: length of the maximal run of `c` at the head,
and the rest of the input. -/
def takeRun (c : Char) (l : List Char) : Nat × List Char :=
  ((l.takeWhile fun x => x == c).length, l.dropWhile fun x => x == c)

/-- The compile-and-link loop of `execute` (lines 152-233 of the
source): folds runs, accumulates pointer motion into `offset` while the
brace stack is empty, flushes a pending offset as a `PTR_MOV` before a
loop head or a scan placeholder (the `i--` re-read), pushes `[` indices
and back-patches on `]`.  A `]` with an empty stack aborts with code 1;
a nonempty stack at the end aborts with code 2.  `P`, `R`, `L` consume
the side tables in order; an index out of range is a Go panic. -/
def compileLoop (sm : List Nat) (cm : List Int) (cmm : List Nat) :
    Nat → List Char → List Instruction → List Nat → Int → Nat → Nat → CompOut
  | _, [], instrs, stack, off, _, _ =>
    let instrs2 := if off ≠ 0 then instrs ++ [⟨.PTR_MOV, off, 0, 0⟩] else instrs
    if stack.isEmpty then .ok instrs2 else .errOpen
  | 0, _ :: _, _, _, _, _, _ => .panicC
  | n + 1, c :: cs, instrs, stack, off, si, ci =>
    if c = '+' then
      compileLoop sm cm cmm n ((c :: cs).dropWhile fun x => x == '+')
        (instrs ++ [⟨.ADD_SUB, (((c :: cs).takeWhile fun x => x == '+').length : Int), 0, off⟩])
        stack off si ci
    else if c = '-' then
      compileLoop sm cm cmm n ((c :: cs).dropWhile fun x => x == '-')
        (instrs ++ [⟨.ADD_SUB, -(((c :: cs).takeWhile fun x => x == '-').length : Int), 0, off⟩])
        stack off si ci
    else if c = '>' then
      if stack.isEmpty then
        compileLoop sm cm cmm n ((c :: cs).dropWhile fun x => x == '>')
          instrs stack (off + (((c :: cs).takeWhile fun x => x == '>').length : Int)) si ci
      else
        compileLoop sm cm cmm n ((c :: cs).dropWhile fun x => x == '>')
          (instrs ++ [⟨.PTR_MOV, (((c :: cs).takeWhile fun x => x == '>').length : Int), 0, 0⟩])
          stack off si ci
    else if c = '<' then
      if stack.isEmpty then
        compileLoop sm cm cmm n ((c :: cs).dropWhile fun x => x == '<')
          instrs stack (off - (((c :: cs).takeWhile fun x => x == '<').length : Int)) si ci
      else
        compileLoop sm cm cmm n ((c :: cs).dropWhile fun x => x == '<')
          (instrs ++ [⟨.PTR_MOV, -(((c :: cs).takeWhile fun x => x == '<').length : Int), 0, 0⟩])
          stack off si ci
    else if c = '[' then
      if off ≠ 0 then
        compileLoop sm cm cmm n cs
          (instrs ++ [⟨.PTR_MOV, off, 0, 0⟩, ⟨.JMP_ZER, 0, 0, 0⟩])
          ((instrs.length + 1) :: stack) 0 si ci
      else
        compileLoop sm cm cmm n cs (instrs ++ [⟨.JMP_ZER, 0, 0, 0⟩])
          (instrs.length :: stack) 0 si ci
    else if c = ']' then
      match stack with
      | [] => .errClose
      | s :: st =>
        compileLoop sm cm cmm n cs
          ((instrs.set s { instrs.getD s default with Data := (instrs.length : Int) }) ++
            [⟨.JMP_NOT_ZER, (s : Int), 0, 0⟩])
          st off si ci
    else if c = '.' then
      compileLoop sm cm cmm n ((c :: cs).dropWhile fun x => x == '.')
        (instrs ++ [⟨.PUT_CHR, (((c :: cs).takeWhile fun x => x == '.').length : Int), 0, off⟩])
        stack off si ci
    else if c = ',' then
      compileLoop sm cm cmm n cs (instrs ++ [⟨.RAD_CHR, 0, 0, off⟩]) stack off si ci
    else if c = 'C' then
      compileLoop sm cm cmm n cs (instrs ++ [⟨.CLR, 0, 0, off⟩]) stack off si ci
    else if c = 'P' then
      if ci < cm.length ∧ ci < cmm.length then
        compileLoop sm cm cmm n cs
          (instrs ++ [⟨.MUL_CPY, cm.getD ci 0, (cmm.getD ci 0 : Int), off⟩])
          stack off si (ci + 1)
      else .panicC
    else if c = 'R' then
      if si < sm.length then
        compileLoop sm cm cmm n cs
          (instrs ++ (if off ≠ 0 then [⟨.PTR_MOV, off, 0, 0⟩] else []) ++
            [⟨.SCN_RGT, (sm.getD si 0 : Int), 0, 0⟩])
          stack 0 (si + 1) ci
      else .panicC
    else if c = 'L' then
      if si < sm.length then
        compileLoop sm cm cmm n cs
          (instrs ++ (if off ≠ 0 then [⟨.PTR_MOV, off, 0, 0⟩] else []) ++
            [⟨.SCN_LFT, (sm.getD si 0 : Int), 0, 0⟩])
          stack 0 (si + 1) ci
      else .panicC
    else
      compileLoop sm cm cmm n cs (instrs ++ [⟨.ADD_SUB, 0, 0, 0⟩]) stack off si ci

/-- Compile the rewritten code against its side tables. -/
def goofCompile (o : OptResult) : CompOut :=
  compileLoop o.scanMap o.copyMap o.copyMul o.code.length o.code [] [] 0 0 0

/-! ## Interpreter -/

/-- Machine state: the tape, the cell pointer, the remaining byte
source, and the bytes written to the sink so far. -/
structure MachState where
  tape : List Nat
  ptr : Int
  inp : List Nat
  out : List Nat
deriving DecidableEq, Repr

/-- Result of one sub-scan (`SCN_RGT`/`SCN_LFT` inner loops): finished
at a pointer, or a Go index-out-of-range panic at a pointer. -/
inductive ScanOut where
  | fin : Int → ScanOut
  | oob : Int → ScanOut
deriving DecidableEq, Repr

/-- The `SCN_RGT` loop `for ; p < len && tape[p] != 0; p += stride`.
A negative pointer below the length check still accesses the slice and
panics.  Fuel `none` can only arise for a non-positive stride. -/
def scanR (t : List Nat) (N : Nat) (stride : Int) : Nat → Int → Option ScanOut
  | 0, _ => none
  | fuel + 1, p =>
    if (N : Int) ≤ p then some (.fin p)
    else if p < 0 then some (.oob p)
    else if t.getD p.toNat 0 = 0 then some (.fin p)
    else scanR t N stride fuel (p + stride)

/-- The `SCN_LFT` loop `for ; p > 0 && tape[p] != 0; p -= stride`.
A pointer at or past the length with `p > 0` accesses the slice and
panics; the loop exits at `p ≤ 0` without reading cell 0. -/
def scanL (t : List Nat) (N : Nat) (stride : Int) : Nat → Int → Option ScanOut
  | 0, _ => none
  | fuel + 1, p =>
    if p ≤ 0 then some (.fin p)
    else if (N : Int) ≤ p then some (.oob p)
    else if t.getD p.toNat 0 = 0 then some (.fin p)
    else scanL t N stride fuel (p - stride)

/-- Result of an interpreter run: normal termination, a Go runtime
panic (index out of range) carrying the state at the panic, or fuel
exhaustion (the surrogate for divergence). -/
inductive RunResult where
  | ok : MachState → RunResult
  | panicked : MachState → RunResult
  | fuelOut : RunResult
deriving DecidableEq, Repr

/-- The dispatch loop of `execute` (lines 239-275): `i` is the Go loop
variable; a jump sets `i` to the stored target and the loop increment
moves past it.  Every slice access checks bounds and panics outside
`[0, len)`.  The `RAD_CHR` case is commented out in the source, so `,`
is a no-op.  `PUT_CHR` emits the UTF-8 encoding of the cell, `Data`
times. -/
def execInstrs (instrs : List Instruction) (N : Nat) : Nat → Int → MachState → RunResult
  | 0, _, _ => .fuelOut
  | fuel + 1, i, s =>
    if (instrs.length : Int) ≤ i then .ok s
    else if i < 0 then .panicked s
    else
      match (instrs.getD i.toNat default).typ with
      | .ADD_SUB =>
        let idx := s.ptr + (instrs.getD i.toNat default).Offset
        if 0 ≤ idx ∧ idx < (N : Int) then
          execInstrs instrs N fuel (i + 1)
            { s with tape :=
                (s.tape.set idx.toNat
                  (byteAdd (s.tape.getD idx.toNat 0) (instrs.getD i.toNat default).Data)) }
        else .panicked s
      | .PTR_MOV =>
        execInstrs instrs N fuel (i + 1) { s with ptr := s.ptr + (instrs.getD i.toNat default).Data }
      | .JMP_ZER =>
        let idx := s.ptr + (instrs.getD i.toNat default).Offset
        if 0 ≤ idx ∧ idx < (N : Int) then
          if s.tape.getD idx.toNat 0 = 0 then
            execInstrs instrs N fuel ((instrs.getD i.toNat default).Data + 1) s
          else execInstrs instrs N fuel (i + 1) s
        else .panicked s
      | .JMP_NOT_ZER =>
        let idx := s.ptr + (instrs.getD i.toNat default).Offset
        if 0 ≤ idx ∧ idx < (N : Int) then
          if s.tape.getD idx.toNat 0 ≠ 0 then
            execInstrs instrs N fuel ((instrs.getD i.toNat default).Data + 1) s
          else execInstrs instrs N fuel (i + 1) s
        else .panicked s
      | .PUT_CHR =>
        let idx := s.ptr + (instrs.getD i.toNat default).Offset
        if 0 ≤ idx ∧ idx < (N : Int) then
          if (instrs.getD i.toNat default).Data < 0 then .panicked s
          else
            execInstrs instrs N fuel (i + 1)
              { s with out := s.out ++
                  (List.replicate (instrs.getD i.toNat default).Data.toNat
                    (utf8Bytes (s.tape.getD idx.toNat 0))).flatten }
        else .panicked s
      | .RAD_CHR => execInstrs instrs N fuel (i + 1) s
      | .CLR =>
        let idx := s.ptr + (instrs.getD i.toNat default).Offset
        if 0 ≤ idx ∧ idx < (N : Int) then
          execInstrs instrs N fuel (i + 1) { s with tape := s.tape.set idx.toNat 0 }
        else .panicked s
      | .MUL_CPY =>
        let src := s.ptr + (instrs.getD i.toNat default).Offset
        if 0 ≤ src ∧ src < (N : Int) then
          if s.tape.getD src.toNat 0 = 0 then execInstrs instrs N fuel (i + 1) s
          else
            let dst := s.ptr + (instrs.getD i.toNat default).Data +
              (instrs.getD i.toNat default).Offset
            if 0 ≤ dst ∧ dst < (N : Int) then
              execInstrs instrs N fuel (i + 1)
                { s with tape :=
                    (s.tape.set dst.toNat
                      (byteAdd (s.tape.getD dst.toNat 0)
                        ((s.tape.getD src.toNat 0 : Int) *
                          (instrs.getD i.toNat default).AuxData))) }
            else .panicked s
        else .panicked s
      | .SCN_RGT =>
        match scanR s.tape N (instrs.getD i.toNat default).Data (N + 1) s.ptr with
        | some (.fin p) => execInstrs instrs N fuel (i + 1) { s with ptr := p }
        | some (.oob p) => .panicked { s with ptr := p }
        | none => .fuelOut
      | .SCN_LFT =>
        match scanL s.tape N (instrs.getD i.toNat default).Data (N + 1) s.ptr with
        | some (.fin p) => execInstrs instrs N fuel (i + 1) { s with ptr := p }
        | some (.oob p) => .panicked { s with ptr := p }
        | none => .fuelOut

/-! ## The compile-and-execute cycle and the session -/

/-- Observable outcome of one `execute` call. -/
inductive ExecOutcome where
  | err : Nat → List Nat → Int → List Nat → ExecOutcome
  | compPanic : ExecOutcome
  | ok : List Nat → Int → List Nat → List Nat → ExecOutcome
  | panicked : List Nat → Int → List Nat → List Nat → ExecOutcome
  | fuelOut : ExecOutcome
deriving DecidableEq, Repr

/-- The whole `execute` function: rewrite, compile, run.  On a bracket
error the cycle aborts before the interpreter starts, so the tape and
pointer are returned unchanged and no output is produced. -/
def goofExecute (fuel : Nat) (optimize : Bool) (raw : List Char)
    (tape : List Nat) (ptr : Int) (inp : List Nat) : ExecOutcome :=
  match goofCompile (goofOptimize raw optimize) with
  | .errClose => .err 1 tape ptr []
  | .errOpen => .err 2 tape ptr []
  | .panicC => .compPanic
  | .ok instrs =>
    match execInstrs instrs tape.length fuel 0 ⟨tape, ptr, inp, []⟩ with
    | .ok s => .ok s.tape s.ptr s.inp s.out
    | .panicked s => .panicked s.tape s.ptr s.inp s.out
    | .fuelOut => .fuelOut

/-- The compile-and-execute cycle on a fresh zero tape of `N` cells
(`execute` right after `cells = make([]byte, memorySize)`), with the
memory size passed as the number it is rather than recomputed from the
tape, so that concrete 30000-cell runs evaluate cheaply. -/
def goofExecuteN (fuel : Nat) (optimize : Bool) (raw : List Char)
    (N : Nat) (inp : List Nat) : ExecOutcome :=
  match goofCompile (goofOptimize raw optimize) with
  | .errClose => .err 1 (List.replicate N 0) 0 []
  | .errOpen => .err 2 (List.replicate N 0) 0 []
  | .panicC => .compPanic
  | .ok instrs =>
    match execInstrs instrs N fuel 0 ⟨List.replicate N 0, 0, inp, []⟩ with
    | .ok s => .ok s.tape s.ptr s.inp s.out
    | .panicked s => .panicked s.tape s.ptr s.inp s.out
    | .fuelOut => .fuelOut

def outcomeTape (tape0 : List Nat) : ExecOutcome → List Nat
  | .err _ t _ _ => t
  | .ok t _ _ _ => t
  | .panicked t _ _ _ => t
  | _ => tape0

def outcomePtr (ptr0 : Int) : ExecOutcome → Int
  | .err _ _ p _ => p
  | .ok _ p _ _ => p
  | .panicked _ p _ _ => p
  | _ => ptr0

def outcomeOut : ExecOutcome → List Nat
  | .err _ _ _ o => o
  | .ok _ _ _ o => o
  | .panicked _ _ _ o => o
  | _ => []

/-- The REPL loop of `main`, restricted to program lines: each line is
executed against the session tape; a bracket error prints a message and
the session continues with the tape unchanged; a normal run updates the
session tape; an unrecovered runtime panic kills the whole process, so
no further line is processed. -/
def sessionRun (fuel : Nat) (optimize : Bool) :
    List (List Char) → List Nat → Int → List ExecOutcome
  | [], _, _ => []
  | line :: rest, tape, ptr =>
    match goofExecute fuel optimize line tape ptr [] with
    | .ok t p i o => .ok t p i o :: sessionRun fuel optimize rest t p
    | .err c t p o => .err c t p o :: sessionRun fuel optimize rest tape ptr
    | r => [r]

/-- Test whether some placeholder letter (C, R, L, P) of the string
lies strictly inside a bracket pair: the running bracket depth (clamped
at zero) is positive at the placeholder's position. -/
def placeholderInLoop : List Char → Nat → Bool
  | [], _ => false
  | c :: t, d =>
    if c = '[' then placeholderInLoop t (d + 1)
    else if c = ']' then placeholderInLoop t (d - 1)
    else (decide (0 < wPH c ∧ 0 < d)) || placeholderInLoop t d

/-- The instruction the compiler emits for one `P` placeholder at a
zero pending offset: a `MUL_CPY` whose `Data` is the recorded target
offset and whose `AuxData` is the recorded multiplier. -/
def mulIns (pr : Int × Nat) : Instruction := ⟨.MUL_CPY, pr.1, (pr.2 : Int), 0⟩

/-- The tape predicted for a fused copy loop: each recorded
(offset, multiplier) pair adds `source value x multiplier` (mod 256)
into the cell at the given offset from the cursor, in segment order. -/
def mulFold (p : Int) (v : Nat) : List (Int × Nat) → List Nat → List Nat
  | [], t => t
  | pr :: rest, t =>
    mulFold p v rest
      (t.set (p + pr.1).toNat (byteAdd (t.getD (p + pr.1).toNat 0) ((v : Int) * (pr.2 : Int))))

/-- Every `JMP_ZER` instruction's `Data` field is the index of a
`JMP_NOT_ZER` instruction further right whose own `Data` points back. -/
def jzPaired (instrs : List Instruction) : Prop :=
  ∀ i, i < instrs.length → (instrs.getD i default).typ = .JMP_ZER →
    ∃ j, i < j ∧ j < instrs.length ∧
      (instrs.getD i default).Data = (j : Int) ∧
      (instrs.getD j default).typ = .JMP_NOT_ZER ∧
      (instrs.getD j default).Data = (i : Int)

/-- Every `JMP_NOT_ZER` instruction's `Data` field is the index of a
`JMP_ZER` instruction further left whose own `Data` points back. -/
def jnzPaired (instrs : List Instruction) : Prop :=
  ∀ j, j < instrs.length → (instrs.getD j default).typ = .JMP_NOT_ZER →
    ∃ i, i < j ∧
      (instrs.getD j default).Data = (i : Int) ∧
      (instrs.getD i default).typ = .JMP_ZER ∧
      (instrs.getD i default).Data = (j : Int)

/-- Every branch or pointer-move instruction carries offset `0`, so the
interpreter's branch guards read the cell at the bare cursor. -/
def branchOffZero (instrs : List Instruction) : Prop :=
  ∀ ins ∈ instrs,
    (ins.typ = .JMP_ZER ∨ ins.typ = .JMP_NOT_ZER ∨ ins.typ = .PTR_MOV) → ins.Offset = 0

/-- Every scan instruction carries a stride of at least one cell. -/
def scanStridesPos (instrs : List Instruction) : Prop :=
  ∀ ins ∈ instrs, (ins.typ = .SCN_RGT ∨ ins.typ = .SCN_LFT) → 1 ≤ ins.Data

/-- The per-instruction facts the compiler establishes for everything it
emits: branches and pointer moves carry offset `0`, scans carry a
positive stride. -/
def insPlain (ins : Instruction) : Prop :=
  ((ins.typ = .JMP_ZER ∨ ins.typ = .JMP_NOT_ZER ∨ ins.typ = .PTR_MOV) → ins.Offset = 0) ∧
  ((ins.typ = .SCN_RGT ∨ ins.typ = .SCN_LFT) → 1 ≤ ins.Data)

/-- The invariant of the compile loop relating the emitted vector and
the brace stack: every emitted instruction satisfies `insPlain`; the
stack holds strictly decreasing indices of pending (still `Data = 0`)
`JMP_ZER` instructions; every non-pending `JMP_ZER` and every
`JMP_NOT_ZER` is mutually linked with its partner. -/
def compInv (instrs : List Instruction) (stack : List Nat) : Prop :=
  (∀ ins ∈ instrs, insPlain ins) ∧
  (∀ s ∈ stack, s < instrs.length ∧ (instrs.getD s default).typ = .JMP_ZER) ∧
  List.Pairwise (fun a b => b < a) stack ∧
  (∀ i, i < instrs.length → (instrs.getD i default).typ = .JMP_ZER → i ∉ stack →
    ∃ j, i < j ∧ j < instrs.length ∧ (instrs.getD i default).Data = (j : Int) ∧
      (instrs.getD j default).typ = .JMP_NOT_ZER ∧ (instrs.getD j default).Data = (i : Int)) ∧
  (∀ j, j < instrs.length → (instrs.getD j default).typ = .JMP_NOT_ZER →
    ∃ i, i < j ∧ i ∉ stack ∧ (instrs.getD j default).Data = (i : Int) ∧
      (instrs.getD i default).typ = .JMP_ZER ∧ (instrs.getD i default).Data = (j : Int))

/-! ## Supporting lemmas -/

lemma goofExecuteN_eq (fuel : Nat) (opt : Bool) (raw : List Char)
    (N : Nat) (inp : List Nat) :
    goofExecuteN fuel opt raw N inp
      = goofExecute fuel opt raw (List.replicate N 0) 0 inp := by
  rw [goofExecuteN, goofExecute, List.length_replicate]

theorem length_dropWhile_le (p : Char → Bool) (l : List Char) :
    (l.dropWhile p).length ≤ l.length := by
  induction l with
  | nil => simp [List.dropWhile]
  | cons c cs ih =>
    simp only [List.dropWhile_cons]
    split
    · exact Nat.le_succ_of_le ih
    · simp

theorem countW_append (w : Char → Nat) (a b : List Char) :
    countW w (a ++ b) = countW w a + countW w b := by
  simp [countW]

theorem countW_cons (w : Char → Nat) (c : Char) (l : List Char) :
    countW w (c :: l) = w c + countW w l := by
  simp [countW]

theorem countW_eq_zero {w : Char → Nat} {l : List Char}
    (h : ∀ c ∈ l, w c = 0) : countW w l = 0 := by
  induction l with
  | nil => rfl
  | cons c cs ih =>
    rw [countW_cons, h c (by simp), ih fun x hx => h x (by simp [hx])]

theorem dfFold_append (a b : List Char) (s : Nat × Nat) :
    dfFold (a ++ b) s = dfFold b (dfFold a s) := by
  simp [dfFold]

theorem dfFold_cons (c : Char) (l : List Char) (s : Nat × Nat) :
    dfFold (c :: l) s = dfFold l (dfStep s c) := by
  simp [dfFold]

theorem dfFold_nonbracket {l : List Char}
    (h : ∀ c ∈ l, c ≠ '[' ∧ c ≠ ']') (s : Nat × Nat) : dfFold l s = s := by
  induction l generalizing s with
  | nil => rfl
  | cons c cs ih =>
    rw [dfFold_cons]
    have hc := h c (by simp)
    rw [show dfStep s c = s by simp [dfStep, hc.1, hc.2]]
    exact ih (fun x hx => h x (by simp [hx])) s

theorem dropWhile_length_lt {p : Char → Bool} {l : List Char}
    (h : ¬(l.takeWhile p).isEmpty = true) :
    (l.dropWhile p).length < l.length := by
  cases l with
  | nil => simp [List.takeWhile] at h
  | cons c cs =>
    by_cases hp : p c
    · rw [List.dropWhile_cons_of_pos hp]
      exact Nat.lt_succ_of_le (length_dropWhile_le p cs)
    · rw [List.takeWhile_cons_of_neg hp] at h
      simp at h

theorem groupSplit_decomp {l r : List Char} (h : groupSplit l = some r) :
    ∃ g, l = '[' :: (g ++ ']' :: r) ∧ g ≠ [] ∧ ∀ c ∈ g, isPM c := by
  rw [groupSplit.eq_def] at h
  split at h
  · rename_i t
    split at h
    · exact absurd h (by simp)
    · rename_i hne
      split at h
      · rename_i r' heq
        injection h with h'
        subst h'
        refine ⟨t.takeWhile isPM, ?_, ?_, fun c hc => List.mem_takeWhile_imp hc⟩
        · have hsplit := List.takeWhile_append_dropWhile (p := isPM) (l := t)
          rw [heq] at hsplit
          exact congrArg (fun x => '[' :: x) hsplit.symm
        · intro hemp
          rw [hemp] at hne
          simp at hne
      · exact absurd h (by simp)
  · exact absurd h (by simp)

theorem groupSplit_length {l r : List Char} (h : groupSplit l = some r) :
    r.length + 3 ≤ l.length := by
  obtain ⟨g, hl, hne, _⟩ := groupSplit_decomp h
  subst hl
  have : 1 ≤ g.length := by
    cases g
    · simp at hne
    · simp
  simp only [List.length_cons, List.length_append]
  omega

theorem isPM_cases {c : Char} (h : isPM c = true) : c = '+' ∨ c = '-' := by
  simp only [isPM, Bool.or_eq_true, beq_iff_eq] at h
  exact h

theorem isGL_cases {c : Char} (h : isGL c = true) : c = '>' ∨ c = '<' := by
  simp only [isGL, Bool.or_eq_true, beq_iff_eq] at h
  exact h

/-- One clearing group is defect-neutral, consists of `[ ] + -`, and
contains an opening bracket. -/
theorem group_pre_props {g : List Char} (hgpm : ∀ c ∈ g, isPM c) (tl : List Char) :
    (∀ c ∈ '[' :: (g ++ ']' :: tl), (c = '[' ∨ c = ']' ∨ c = '+' ∨ c = '-') ∨ c ∈ tl) ∧
    (∀ a, dfFold ('[' :: (g ++ ']' :: tl)) a = dfFold tl a) ∧
    1 ≤ countW wLB ('[' :: (g ++ ']' :: tl)) := by
  refine ⟨?_, ?_, ?_⟩
  · intro c hc
    simp only [List.mem_cons, List.mem_append] at hc
    rcases hc with hc | hc | hc
    · exact Or.inl (Or.inl hc)
    · rcases isPM_cases (hgpm c hc) with hc | hc
      · exact Or.inl (Or.inr (Or.inr (Or.inl hc)))
      · exact Or.inl (Or.inr (Or.inr (Or.inr hc)))
    · rcases hc with hc | hc
      · exact Or.inl (Or.inr (Or.inl hc))
      · exact Or.inr hc
  · intro a
    have hg : dfFold g (a.1, a.2 + 1) = (a.1, a.2 + 1) :=
      dfFold_nonbracket (fun c hc => by
        rcases isPM_cases (hgpm c hc) with h' | h' <;> simp [h']) _
    rw [show ('[' :: (g ++ ']' :: tl)) = ['['] ++ g ++ (']' :: tl) by simp]
    rw [dfFold_append, dfFold_append]
    rw [show dfFold ['['] a = (a.1, a.2 + 1) by simp [dfFold, dfStep]]
    rw [hg, dfFold_cons]
    rw [show dfStep (a.1, a.2 + 1) ']' = a by simp [dfStep]]
  · rw [show ('[' :: (g ++ ']' :: tl)) = ['['] ++ g ++ (']' :: tl) by simp]
    rw [countW_append, countW_append]
    have : countW wLB ['['] = 1 := by simp [countW, wLB]
    omega

/-- Decomposition of a successful `clearGroups`: a nonempty,
defect-neutral consumed segment over the alphabet `[ ] + -` with at
least one opening bracket. -/
theorem clearGroups_decomp : ∀ (n : Nat) (l : List Char),
    ∀ r, clearGroups n l = some r →
    ∃ pre, l = pre ++ r ∧ pre ≠ [] ∧
      (∀ c ∈ pre, c = '[' ∨ c = ']' ∨ c = '+' ∨ c = '-') ∧
      (∀ a, dfFold pre a = a) ∧ 1 ≤ countW wLB pre := by
  intro n
  induction n with
  | zero =>
    intro l r hr
    rw [clearGroups] at hr
    exact absurd hr (by simp)
  | succ n ih =>
    intro l r hr
    rw [clearGroups] at hr
    split at hr
    · rename_i rg heqg
      obtain ⟨g, hx, hgne, hgpm⟩ := groupSplit_decomp heqg
      split at hr
      · rename_i r2 heq
        injection hr with hr'
        subst hr'
        obtain ⟨pre2, hrest, _, hchars2, hdf2, _⟩ := ih rg r2 heq
        refine ⟨'[' :: (g ++ ']' :: pre2), ?_, by simp, ?_, ?_, ?_⟩
        · rw [hx, hrest]
          simp
        · intro c hc
          rcases (group_pre_props hgpm pre2).1 c hc with hc | hc
          · exact hc
          · exact hchars2 c hc
        · intro a
          rw [(group_pre_props hgpm pre2).2.1 a]
          exact hdf2 a
        · exact (group_pre_props hgpm pre2).2.2
      · rename_i heq
        injection hr with hr'
        refine ⟨'[' :: (g ++ [']']), ?_, by simp, ?_, ?_, ?_⟩
        · rw [hx, ← hr']
          simp
        · intro c hc
          rcases (group_pre_props hgpm []).1 c (by simpa using hc) with hc | hc
          · exact hc
          · simp at hc
        · intro a
          have := (group_pre_props hgpm []).2.1 a
          simpa using this
        · have := (group_pre_props hgpm []).2.2
          simpa using this
    · exact absurd hr (by simp)

theorem rest_length_lt {pre rest l : List Char} (hl : l = pre ++ rest)
    (hne : pre ≠ []) : rest.length < l.length := by
  subst hl
  cases pre
  · simp at hne
  · simp only [List.length_append, List.length_cons]
    omega

theorem isPMC_cases {c : Char} (h : isPMC c = true) : c = '+' ∨ c = '-' ∨ c = 'C' := by
  simp only [isPMC, Bool.or_eq_true, beq_iff_eq] at h
  tauto

theorem isDot_eq {c : Char} (h : isDot c = true) : c = '.' := by
  simp only [isDot, beq_iff_eq] at h
  exact h

theorem clearMatcher_decomp {l : List Char} {x : List Char × List Nat × List Char}
    (h : clearMatcher l = some x) :
    x.1 = ['C'] ∧ x.2.1 = [] ∧ ∃ pre, l = pre ++ x.2.2 ∧ pre ≠ [] ∧
      (∀ c ∈ pre, c = '[' ∨ c = ']' ∨ c = '+' ∨ c = '-' ∨ c = 'C' ∨ c = '.') ∧
      (∀ a, dfFold pre a = a) ∧ 1 ≤ countW wLB pre := by
  rw [clearMatcher] at h
  split at h
  · rename_i r heq
    injection h with h'
    subst h'
    obtain ⟨gpre, hdw, hgne, hchars, hdf, hlb⟩ :=
      clearGroups_decomp (l.dropWhile isPMC).length (l.dropWhile isPMC) r heq
    refine ⟨rfl, rfl, l.takeWhile isPMC ++ gpre ++ r.takeWhile isDot, ?_, ?_, ?_, ?_, ?_⟩
    · have h1 := List.takeWhile_append_dropWhile (p := isPMC) (l := l)
      have h2 := List.takeWhile_append_dropWhile (p := isDot) (l := r)
      calc l = l.takeWhile isPMC ++ l.dropWhile isPMC := h1.symm
        _ = l.takeWhile isPMC ++ (gpre ++ r) := by rw [hdw]
        _ = l.takeWhile isPMC ++ (gpre ++ (r.takeWhile isDot ++ r.dropWhile isDot)) := by
              rw [h2]
        _ = (l.takeWhile isPMC ++ gpre ++ r.takeWhile isDot) ++ r.dropWhile isDot := by
              simp
    · intro habs
      rw [List.append_eq_nil] at habs
      rw [List.append_eq_nil] at habs
      exact hgne habs.1.2
    · intro c hc
      simp only [List.mem_append] at hc
      rcases hc with (hc | hc) | hc
      · rcases isPMC_cases (List.mem_takeWhile_imp hc) with h' | h' | h' <;> tauto
      · rcases hchars c hc with h' | h' | h' | h' <;> tauto
      · exact Or.inr (Or.inr (Or.inr (Or.inr (Or.inr (isDot_eq (List.mem_takeWhile_imp hc))))))
    · intro a
      rw [dfFold_append, dfFold_append]
      rw [dfFold_nonbracket (l := l.takeWhile isPMC) (fun c hc => by
        rcases isPMC_cases (List.mem_takeWhile_imp hc) with h' | h' | h' <;> simp [h'])]
      rw [hdf a]
      exact dfFold_nonbracket (fun c hc => by simp [isDot_eq (List.mem_takeWhile_imp hc)]) a
    · rw [countW_append, countW_append]
      omega
  · exact absurd h (by simp)

theorem clearMatcher_shrink : ∀ l x, clearMatcher l = some x → x.2.2.length < l.length := by
  intro l x h
  obtain ⟨-, -, pre, hl, hne, -, -, -⟩ := clearMatcher_decomp h
  exact rest_length_lt hl hne

/-- Decomposition of a successful scan matcher (for either direction
`d`, producing letter `o`): the match is `[`, a nonempty run of `d`,
`]`; the recorded stride is the positive run length. -/
theorem scanMatcher_decomp {d o : Char} {l : List Char}
    {x : List Char × List Nat × List Char}
    (hdef : scanMatcher d o l = some x) :
    ∃ run, x.1 = [o] ∧ x.2.1 = [run.length] ∧ run ≠ [] ∧ (∀ c ∈ run, c = d) ∧
      l = ('[' :: (run ++ [']'])) ++ x.2.2 := by
  rw [scanMatcher.eq_def] at hdef
  split at hdef
  · rename_i t
    split at hdef
    · exact absurd hdef (by simp)
    · rename_i hne
      split at hdef
      · rename_i r heq
        injection hdef with h'
        subst h'
        refine ⟨t.takeWhile fun c => c == d, rfl, rfl, ?_, ?_, ?_⟩
        · intro habs
          rw [habs] at hne
          simp at hne
        · intro c hc
          have := List.mem_takeWhile_imp hc
          simpa using this
        · have hsplit := List.takeWhile_append_dropWhile (p := fun c => c == d) (l := t)
          rw [heq] at hsplit
          simp only [List.cons_append, List.append_assoc, List.singleton_append,
            List.nil_append]
          exact congrArg (fun y => '[' :: y) hsplit.symm
      · exact absurd hdef (by simp)
  · exact absurd hdef (by simp)

theorem scanRMatcher_shrink : ∀ l x, scanRMatcher l = some x → x.2.2.length < l.length := by
  intro l x h
  obtain ⟨run, -, -, -, -, hl⟩ := scanMatcher_decomp (d := '>') (o := 'R') h
  exact rest_length_lt hl (by simp)

theorem scanLMatcher_shrink : ∀ l x, scanLMatcher l = some x → x.2.2.length < l.length := by
  intro l x h
  obtain ⟨run, -, -, -, -, hl⟩ := scanMatcher_decomp (d := '<') (o := 'L') h
  exact rest_length_lt hl (by simp)

theorem isCRL_cases {c : Char} (h : isCRL c = true) : c = 'C' ∨ c = 'R' ∨ c = 'L' := by
  simp only [isCRL, Bool.or_eq_true, beq_iff_eq] at h
  tauto

theorem isRL_cases {c : Char} (h : isRL c = true) : c = 'R' ∨ c = 'L' := by
  simp only [isRL, Bool.or_eq_true, beq_iff_eq] at h
  exact h

theorem kzAlt2_decomp {l : List Char} {x : List Char × List Nat × List Char}
    (h : kzAlt2 l = some x) :
    x.1 = [] ∧ x.2.1 = [] ∧ ∃ pre, l = pre ++ x.2.2 ∧ pre ≠ [] ∧
      (∀ c ∈ pre, c = 'C' ∨ c = 'R' ∨ c = 'L' ∨ c = '.') := by
  rw [kzAlt2] at h
  split at h
  · exact absurd h (by simp)
  · split at h
    · exact absurd h (by simp)
    · injection h with h'
      subst h'
      refine ⟨rfl, rfl, l.takeWhile isCRL ++ (l.dropWhile isCRL).takeWhile isDot, ?_, ?_, ?_⟩
      · have h1 := List.takeWhile_append_dropWhile (p := isCRL) (l := l)
        have h2 := List.takeWhile_append_dropWhile (p := isDot) (l := l.dropWhile isCRL)
        calc l = l.takeWhile isCRL ++ l.dropWhile isCRL := h1.symm
          _ = l.takeWhile isCRL ++
              ((l.dropWhile isCRL).takeWhile isDot ++ (l.dropWhile isCRL).dropWhile isDot) := by
                rw [h2]
          _ = _ := by simp
      · intro habs
        rw [List.append_eq_nil] at habs
        rename_i hne _
        rw [habs.1] at hne
        simp at hne
      · intro c hc
        simp only [List.mem_append] at hc
        rcases hc with hc | hc
        · rcases isCRL_cases (List.mem_takeWhile_imp hc) with h' | h' | h' <;> tauto
        · exact Or.inr (Or.inr (Or.inr (isDot_eq (List.mem_takeWhile_imp hc))))

theorem kzMatcher_decomp {l : List Char} {x : List Char × List Nat × List Char}
    (h : kzMatcher l = some x) :
    x.1 = [] ∧ x.2.1 = [] ∧ ∃ pre, l = pre ++ x.2.2 ∧ pre ≠ [] ∧
      (∀ c ∈ pre, c = 'C' ∨ c = 'R' ∨ c = 'L' ∨ c = '.') := by
  rw [kzMatcher] at h
  split at h
  · exact kzAlt2_decomp h
  · rename_i hne
    split at h
    · rename_i t1 heq
      injection h with h'
      subst h'
      refine ⟨rfl, rfl, l.takeWhile isRL ++ ['C'], ?_, by simp, ?_⟩
      · have h1 := List.takeWhile_append_dropWhile (p := isRL) (l := l)
        rw [heq] at h1
        calc l = l.takeWhile isRL ++ 'C' :: t1 := h1.symm
          _ = _ := by simp
      · intro c hc
        simp only [List.mem_append, List.mem_singleton] at hc
        rcases hc with hc | hc
        · rcases isRL_cases (List.mem_takeWhile_imp hc) with h' | h' <;> tauto
        · tauto
    · exact kzAlt2_decomp h

theorem kzMatcher_shrink : ∀ l x, kzMatcher l = some x → x.2.2.length < l.length := by
  intro l x h
  obtain ⟨-, -, pre, hl, hne, -⟩ := kzMatcher_decomp h
  exact rest_length_lt hl hne

theorem stdinMatcher_decomp {l : List Char} {x : List Char × List Nat × List Char}
    (h : stdinMatcher l = some x) :
    x.1 = [','] ∧ x.2.1 = [] ∧ ∃ pre, l = pre ++ x.2.2 ∧ pre ≠ [] ∧
      (∀ c ∈ pre, c = '+' ∨ c = '-' ∨ c = 'C' ∨ c = ',') := by
  rw [stdinMatcher] at h
  split at h
  · exact absurd h (by simp)
  · rename_i hne
    split at h
    · rename_i t2 heq
      injection h with h'
      subst h'
      refine ⟨rfl, rfl, l.takeWhile isPMC ++ [','], ?_, by simp, ?_⟩
      · have h1 := List.takeWhile_append_dropWhile (p := isPMC) (l := l)
        rw [heq] at h1
        calc l = l.takeWhile isPMC ++ ',' :: t2 := h1.symm
          _ = _ := by simp
      · intro c hc
        simp only [List.mem_append, List.mem_singleton] at hc
        rcases hc with hc | hc
        · rcases isPMC_cases (List.mem_takeWhile_imp hc) with h' | h' | h' <;> tauto
        · tauto
    · exact absurd h (by simp)

theorem stdinMatcher_shrink : ∀ l x, stdinMatcher l = some x → x.2.2.length < l.length := by
  intro l x h
  obtain ⟨-, -, pre, hl, hne, -⟩ := stdinMatcher_decomp h
  exact rest_length_lt hl hne

theorem termSplit_decomp {alt2 : Bool} {r rr : List Char} (h : termSplit alt2 r = some rr) :
    r = termChars alt2 ++ rr := by
  rw [termSplit.eq_def] at h
  split at h <;> simp_all [termChars]

theorem isMv_cases {c : Char} (h : isMv c = true) : c = '<' ∨ c = '>' := by
  simp only [isMv, Bool.or_eq_true, beq_iff_eq] at h
  exact h

theorem isPlus_eq {c : Char} (h : isPlus c = true) : c = '+' := by
  simp only [isPlus, beq_iff_eq] at h
  exact h

/-- Decomposition of a successful body parse: the consumed body is
nonempty, precedes the rest, uses only `< > + - ]`, and steps the
bracket defect like a single closing bracket (its one `]`). -/
theorem segsParse_decomp (alt2 : Bool) : ∀ (n : Nat) (l : List Char),
    ∀ body segs fin rr, segsParse alt2 n l = some (body, segs, fin, rr) →
    l = body ++ rr ∧ body ≠ [] ∧
      (∀ c ∈ body, c = '<' ∨ c = '>' ∨ c = '+' ∨ c = '-' ∨ c = ']') ∧
      (∀ a : Nat × Nat, dfFold body (a.1, a.2 + 1) = a) := by
  intro n
  induction n with
  | zero =>
    intro l body segs fin rr h
    rw [segsParse] at h
    exact absurd h (by simp)
  | succ n ih =>
    intro l body segs fin rr h
    rw [segsParse] at h
    split at h
    · exact absurd h (by simp)
    · rename_i hmv
      have hmvchars : ∀ c ∈ l.takeWhile isMv, c = '<' ∨ c = '>' :=
        fun c hc => isMv_cases (List.mem_takeWhile_imp hc)
      have hmvdf : ∀ s, dfFold (l.takeWhile isMv) s = s := fun s =>
        dfFold_nonbracket (fun c hc => by rcases hmvchars c hc with h' | h' <;> simp [h']) s
      have hldec := (List.takeWhile_append_dropWhile (p := isMv) (l := l)).symm
      split at h
      · rename_i hpl
        split at h
        · rename_i rr' heq
          injection h with h'
          injection h' with hbody h'
          injection h' with hsegs h'
          injection h' with hfin hrr
          subst hbody hrr
          refine ⟨?_, ?_, ?_, ?_⟩
          · calc l = l.takeWhile isMv ++ l.dropWhile isMv := hldec
              _ = l.takeWhile isMv ++ (termChars alt2 ++ rr') := by
                    rw [termSplit_decomp heq]
              _ = _ := by simp
          · cases alt2 <;> simp [termChars]
          · intro c hc
            simp only [List.mem_append] at hc
            rcases hc with hc | hc
            · rcases hmvchars c hc with h' | h' <;> tauto
            · cases alt2 <;> simp only [termChars, if_true, if_false,
                Bool.false_eq_true, List.mem_cons, List.mem_singleton,
                List.not_mem_nil, or_false] at hc
              · tauto
              · rcases hc with hc | hc <;> tauto
          · intro a
            rw [dfFold_append, hmvdf]
            cases alt2 <;> simp [termChars, dfFold, dfStep]
        · exact absurd h (by simp)
      · rename_i hpl
        split at h
        · rename_i body' segs' fin' rr' heq
          injection h with h'
          injection h' with hbody h'
          injection h' with hsegs h'
          injection h' with hfin hrr
          subst hbody hrr hfin
          obtain ⟨hdec2, hne2, hchars2, hdf2⟩ := ih _ body' segs' fin' rr' heq
          have hplchars : ∀ c ∈ (l.dropWhile isMv).takeWhile isPlus, c = '+' :=
            fun c hc => isPlus_eq (List.mem_takeWhile_imp hc)
          refine ⟨?_, ?_, ?_, ?_⟩
          · have hldec2 :=
              (List.takeWhile_append_dropWhile (p := isPlus) (l := l.dropWhile isMv)).symm
            calc l = l.takeWhile isMv ++ l.dropWhile isMv := hldec
              _ = l.takeWhile isMv ++
                  ((l.dropWhile isMv).takeWhile isPlus ++ (l.dropWhile isMv).dropWhile isPlus) := by
                    rw [← hldec2]
              _ = _ := by rw [hdec2]; simp
          · intro habs
            simp only [List.append_eq_nil] at habs
            exact hne2 habs.2
          · intro c hc
            simp only [List.mem_append] at hc
            rcases hc with (hc | hc) | hc
            · rcases hmvchars c hc with h' | h' <;> tauto
            · have := hplchars c hc
              tauto
            · exact hchars2 c hc
          · intro a
            rw [dfFold_append, dfFold_append, hmvdf]
            rw [dfFold_nonbracket (l := (l.dropWhile isMv).takeWhile isPlus)
              (fun c hc => by simp [hplchars c hc])]
            exact hdf2 a
        · exact absurd h (by simp)

theorem segsParse_shrink {alt2 : Bool} {n : Nat} {l body : List Char}
    {segs : List (Nat × Nat × Nat)} {fin : Nat × Nat} {rr : List Char}
    (h : segsParse alt2 n l = some (body, segs, fin, rr)) : rr.length < l.length := by
  obtain ⟨hdec, hne, -, -⟩ := segsParse_decomp alt2 n l body segs fin rr h
  exact rest_length_lt hdec hne

theorem copyMatcher_shrink : ∀ l x, copyMatcher l = some x → x.2.2.length < l.length := by
  intro l x h
  rw [copyMatcher.eq_def] at h
  split at h
  · rename_i t2
    split at h
    · rename_i body segs fin rest heq
      have hlt := segsParse_shrink heq
      split at h
      · exact absurd h (by simp)
      · split at h <;> (injection h with h'; subst h'; simp only [List.length_cons]; omega)
    · exact absurd h (by simp)
  · rename_i t _
    split at h
    · rename_i body segs fin rest heq
      have hlt := segsParse_shrink heq
      split at h
      · exact absurd h (by simp)
      · split at h <;> (injection h with h'; subst h'; simp only [List.length_cons]; omega)
    · exact absurd h (by simp)
  · exact absurd h (by simp)

theorem dropRun_lt (c : Char) (cs : List Char) :
    ((c :: cs).dropWhile fun x => x == c).length < (c :: cs).length := by
  rw [List.dropWhile_cons_of_pos (by simp)]
  exact Nat.lt_succ_of_le (length_dropWhile_le _ _)

/-! ### Generic facts about `rewritePass`

Each lemma assumes a per-match fact about the matcher: the input
decomposes as the consumed segment followed by the returned rest, and
the replacement relates to the consumed segment.  `Hs` (the rest is
shorter) makes the fuel `l.length` sufficient. -/

theorem rewritePass_foldl {κ σ : Type} (m : List Char → Option (List Char × List κ × List Char))
    (g : σ → Char → σ)
    (Hs : ∀ l x, m l = some x → x.2.2.length < l.length)
    (H : ∀ l x, m l = some x → ∃ pre, l = pre ++ x.2.2 ∧ ∀ s, x.1.foldl g s = pre.foldl g s) :
    ∀ (n : Nat) (l : List Char), l.length ≤ n → ∀ (acc : List κ) (s : σ),
      ((rewritePass m n l acc).1).foldl g s = l.foldl g s := by
  intro n
  induction n with
  | zero =>
    intro l hlen acc s
    have : l = [] := List.eq_nil_of_length_eq_zero (Nat.le_zero.mp hlen)
    subst this
    rfl
  | succ n ih =>
    intro l hlen acc s
    match l with
    | [] => rfl
    | c :: cs =>
      simp only [rewritePass]
      split
      · rename_i x heq
        have hsh := Hs _ _ heq
        obtain ⟨pre, hdec, hfold⟩ := H _ _ heq
        rw [List.foldl_append]
        rw [ih x.2.2 (by simp only [List.length_cons] at hsh hlen; omega) (acc ++ x.2.1)
          (x.1.foldl g s)]
        rw [hfold s, ← List.foldl_append, ← hdec]
      · rw [show ((c :: (rewritePass m n cs acc).1)).foldl g s
            = ((rewritePass m n cs acc).1).foldl g (g s c) from rfl]
        rw [ih cs (by simp only [List.length_cons] at hlen; omega) acc (g s c)]
        rfl

theorem countW_eq_foldl (w : Char → Nat) : ∀ (l : List Char) (a : Nat),
    l.foldl (fun a c => a + w c) a = a + countW w l := by
  intro l
  induction l with
  | nil => intro a; simp [countW]
  | cons c cs ih =>
    intro a
    rw [show ((c :: cs).foldl (fun a c => a + w c) a) = cs.foldl (fun a c => a + w c) (a + w c)
      from rfl]
    rw [ih (a + w c), countW_cons]
    omega

/-- Transfer of any character count that the matcher preserves
exactly. -/
theorem rewritePass_countW_eq {κ : Type} (m : List Char → Option (List Char × List κ × List Char))
    (w : Char → Nat)
    (Hs : ∀ l x, m l = some x → x.2.2.length < l.length)
    (H : ∀ l x, m l = some x → ∃ pre, l = pre ++ x.2.2 ∧ countW w x.1 = countW w pre) :
    ∀ (n : Nat) (l : List Char), l.length ≤ n → ∀ (acc : List κ),
      countW w (rewritePass m n l acc).1 = countW w l := by
  intro n l hlen acc
  have := rewritePass_foldl m (fun a c => a + w c) Hs ?_ n l hlen acc 0
  · rw [countW_eq_foldl, countW_eq_foldl] at this
    omega
  · intro l' x heq
    obtain ⟨pre, hdec, hcnt⟩ := H l' x heq
    exact ⟨pre, hdec, fun s => by rw [countW_eq_foldl, countW_eq_foldl, hcnt]⟩

/-- Monotonicity of any character count that the matcher does not
increase. -/
theorem rewritePass_countW_le {κ : Type} (m : List Char → Option (List Char × List κ × List Char))
    (w : Char → Nat)
    (Hs : ∀ l x, m l = some x → x.2.2.length < l.length)
    (H : ∀ l x, m l = some x → ∃ pre, l = pre ++ x.2.2 ∧ countW w x.1 ≤ countW w pre) :
    ∀ (n : Nat) (l : List Char), l.length ≤ n → ∀ (acc : List κ),
      countW w (rewritePass m n l acc).1 ≤ countW w l := by
  intro n
  induction n with
  | zero =>
    intro l hlen acc
    have : l = [] := List.eq_nil_of_length_eq_zero (Nat.le_zero.mp hlen)
    subst this
    simp [rewritePass]
  | succ n ih =>
    intro l hlen acc
    match l with
    | [] => simp [rewritePass]
    | c :: cs =>
      simp only [rewritePass]
      split
      · rename_i x heq
        have hsh := Hs _ _ heq
        obtain ⟨pre, hdec, hcnt⟩ := H _ _ heq
        have hrec := ih x.2.2 (by simp only [List.length_cons] at hsh hlen; omega) (acc ++ x.2.1)
        rw [countW_append, hdec, countW_append]
        omega
      · have hrec := ih cs (by simp only [List.length_cons] at hlen; omega) acc
        rw [countW_cons, countW_cons]
        omega

/-- Growth of the side table bounds the count of the characters the
matcher emits one table entry for. -/
theorem rewritePass_count_maps {κ : Type} (m : List Char → Option (List Char × List κ × List Char))
    (w : Char → Nat)
    (Hs : ∀ l x, m l = some x → x.2.2.length < l.length)
    (H : ∀ l x, m l = some x → ∃ pre, l = pre ++ x.2.2 ∧
      countW w x.1 ≤ countW w pre + x.2.1.length) :
    ∀ (n : Nat) (l : List Char), l.length ≤ n → ∀ (acc : List κ),
      countW w (rewritePass m n l acc).1 + acc.length ≤
        countW w l + (rewritePass m n l acc).2.length := by
  intro n
  induction n with
  | zero =>
    intro l hlen acc
    have : l = [] := List.eq_nil_of_length_eq_zero (Nat.le_zero.mp hlen)
    subst this
    simp [rewritePass]
  | succ n ih =>
    intro l hlen acc
    match l with
    | [] => simp [rewritePass]
    | c :: cs =>
      simp only [rewritePass]
      split
      · rename_i x heq
        dsimp only
        have hsh := Hs _ _ heq
        obtain ⟨pre, hdec, hcnt⟩ := H _ _ heq
        have hrec := ih x.2.2 (by simp only [List.length_cons] at hsh hlen; omega) (acc ++ x.2.1)
        rw [countW_append, hdec, countW_append]
        rw [List.length_append] at hrec
        omega
      · dsimp only
        have hrec := ih cs (by simp only [List.length_cons] at hlen; omega) acc
        rw [countW_cons, countW_cons]
        omega

/-- A matcher that records no side-table entries leaves the table
untouched. -/
theorem rewritePass_maps_id {κ : Type} (m : List Char → Option (List Char × List κ × List Char))
    (H : ∀ l x, m l = some x → x.2.1 = []) :
    ∀ (n : Nat) (l : List Char) (acc : List κ), (rewritePass m n l acc).2 = acc := by
  intro n
  induction n with
  | zero =>
    intro l acc
    match l with
    | [] => rfl
    | _ :: _ => rfl
  | succ n ih =>
    intro l acc
    match l with
    | [] => rfl
    | c :: cs =>
      simp only [rewritePass]
      split
      · rename_i x heq
        rw [ih x.2.2 (acc ++ x.2.1), H _ _ heq]
        simp
      · exact ih cs acc

/-- The side table only grows at the end. -/
theorem rewritePass_maps_extend {κ : Type}
    (m : List Char → Option (List Char × List κ × List Char)) :
    ∀ (n : Nat) (l : List Char) (acc : List κ),
      ∃ tail, (rewritePass m n l acc).2 = acc ++ tail := by
  intro n
  induction n with
  | zero =>
    intro l acc
    match l with
    | [] => exact ⟨[], by simp [rewritePass]⟩
    | _ :: _ => exact ⟨[], by simp [rewritePass]⟩
  | succ n ih =>
    intro l acc
    match l with
    | [] => exact ⟨[], by simp [rewritePass]⟩
    | c :: cs =>
      simp only [rewritePass]
      split
      · rename_i x heq
        obtain ⟨tail, htail⟩ := ih x.2.2 (acc ++ x.2.1)
        exact ⟨x.2.1 ++ tail, by rw [htail]; simp⟩
      · exact ih cs acc

/-- Every side-table entry the pass appends satisfies any property the
matcher guarantees of its entries. -/
theorem rewritePass_maps_pred {κ : Type}
    (m : List Char → Option (List Char × List κ × List Char)) (P : κ → Prop)
    (H : ∀ l x, m l = some x → ∀ k ∈ x.2.1, P k) :
    ∀ (n : Nat) (l : List Char) (acc : List κ), (∀ k ∈ acc, P k) →
      ∀ k ∈ (rewritePass m n l acc).2, P k := by
  intro n
  induction n with
  | zero =>
    intro l acc hacc
    match l with
    | [] => exact hacc
    | _ :: _ => exact hacc
  | succ n ih =>
    intro l acc hacc
    match l with
    | [] => exact hacc
    | c :: cs =>
      simp only [rewritePass]
      split
      · rename_i x heq
        refine ih x.2.2 (acc ++ x.2.1) ?_
        intro k hk
        rcases List.mem_append.mp hk with hk | hk
        · exact hacc k hk
        · exact H _ _ heq k hk
      · exact ih cs acc hacc

/-- The quantity `count of openers + min 1 (count of placeholders)`
never increases across a pass whose matches trade at least one
consumed opener for the placeholders they emit.  This drives the
amended placeholder claim: once a pass emits a placeholder, at most
zero openers can remain out of a single-opener input. -/
theorem rewritePass_phi {κ : Type} (m : List Char → Option (List Char × List κ × List Char))
    (Hs : ∀ l x, m l = some x → x.2.2.length < l.length)
    (H : ∀ l x, m l = some x → ∃ pre, l = pre ++ x.2.2 ∧
      countW wLB x.1 + min 1 (countW wPH x.1) ≤ countW wLB pre) :
    ∀ (n : Nat) (l : List Char), l.length ≤ n → ∀ (acc : List κ),
      countW wLB (rewritePass m n l acc).1 + min 1 (countW wPH (rewritePass m n l acc).1) ≤
        countW wLB l + min 1 (countW wPH l) := by
  have Hle := rewritePass_countW_le m wLB Hs (by
    intro l x heq
    obtain ⟨pre, hdec, hphi⟩ := H l x heq
    exact ⟨pre, hdec, by omega⟩)
  intro n
  induction n with
  | zero =>
    intro l hlen acc
    have : l = [] := List.eq_nil_of_length_eq_zero (Nat.le_zero.mp hlen)
    subst this
    simp [rewritePass]
  | succ n ih =>
    intro l hlen acc
    match l with
    | [] => simp [rewritePass]
    | c :: cs =>
      simp only [rewritePass]
      split
      · rename_i x heq
        have hsh := Hs _ _ heq
        obtain ⟨pre, hdec, hphi⟩ := H _ _ heq
        have hrec := ih x.2.2 (by simp only [List.length_cons] at hsh hlen; omega) (acc ++ x.2.1)
        rw [hdec]
        rw [countW_append (w := wLB), countW_append (w := wPH),
          countW_append (w := wLB), countW_append (w := wPH)]
        omega
      · have hrec := ih cs (by simp only [List.length_cons] at hlen; omega) acc
        have hle2 := Hle n cs (by simp only [List.length_cons] at hlen; omega) acc
        rw [countW_cons (w := wLB), countW_cons (w := wPH),
          countW_cons (w := wLB), countW_cons (w := wPH)]
        omega

theorem segPairs_length : ∀ (segs : List (Nat × Nat × Nat)) (acc : Int),
    (segPairs segs acc).length = segs.length := by
  intro segs
  induction segs with
  | nil => intro acc; rfl
  | cons s rest ih =>
    intro acc
    match s with
    | (g, lt, p) => simp [segPairs, ih]

/-- Master decomposition of a successful copy-loop match: the consumed
segment is a whole loop `[ body ]` over `< > + - [ ]` with exactly one
opener, defect-neutral; the replacement is either one `P` per recorded
pair plus a trailing `C` (balanced case) or the consumed segment
verbatim with no recorded pairs (unbalanced case). -/
theorem copyMatcher_decomp {l : List Char} {x : List Char × List (Int × Nat) × List Char}
    (h : copyMatcher l = some x) :
    ∃ pre, l = pre ++ x.2.2 ∧ pre ≠ [] ∧
      (∀ c ∈ pre, c = '<' ∨ c = '>' ∨ c = '+' ∨ c = '-' ∨ c = '[' ∨ c = ']') ∧
      (∀ a, dfFold pre a = a) ∧ countW wLB pre = 1 ∧
      ((∃ k, x.1 = List.replicate k 'P' ++ ['C'] ∧ k = x.2.1.length ∧ 1 ≤ k) ∨
        (x.1 = pre ∧ x.2.1 = [])) := by
  rw [copyMatcher.eq_def] at h
  split at h
  · rename_i t2
    split at h
    · rename_i body segs fin rest heq
      obtain ⟨hdec, hbne, hchars, hdf⟩ := segsParse_decomp false t2.length t2 body segs fin rest heq
      have hchars' : ∀ c ∈ '[' :: '-' :: body,
          c = '<' ∨ c = '>' ∨ c = '+' ∨ c = '-' ∨ c = '[' ∨ c = ']' := by
        intro c hc
        rcases List.mem_cons.mp hc with hc | hc
        · tauto
        rcases List.mem_cons.mp hc with hc | hc
        · tauto
        · rcases hchars c hc with h' | h' | h' | h' | h' <;> tauto
      have hdf' : ∀ a, dfFold ('[' :: '-' :: body) a = a := by
        intro a
        rw [dfFold_cons, dfFold_cons]
        rw [show dfStep a '[' = (a.1, a.2 + 1) by simp [dfStep]]
        rw [show dfStep ((a.1 : Nat), a.2 + 1) '-' = (a.1, a.2 + 1) by simp [dfStep]]
        exact hdf a
      have hlb' : countW wLB ('[' :: '-' :: body) = 1 := by
        rw [countW_cons, countW_cons]
        rw [countW_eq_zero (w := wLB) (l := body) ?_]
        · simp [wLB]
        · intro c hc
          rcases hchars c hc with h' | h' | h' | h' | h' <;> simp [h', wLB]
      split at h
      · exact absurd h (by simp)
      · rename_i hsne
        split at h
        · injection h with h'
          subst h'
          refine ⟨'[' :: '-' :: body, by rw [hdec]; rfl, by simp, hchars', hdf', hlb', ?_⟩
          refine Or.inl ⟨segs.length, rfl, by rw [segPairs_length], ?_⟩
          cases segs
          · simp at hsne
          · simp
        · injection h with h'
          subst h'
          refine ⟨'[' :: '-' :: body, by rw [hdec]; rfl, by simp, hchars', hdf', hlb', ?_⟩
          exact Or.inr ⟨rfl, rfl⟩
    · exact absurd h (by simp)
  · rename_i t hne
    split at h
    · rename_i body segs fin rest heq
      obtain ⟨hdec, hbne, hchars, hdf⟩ := segsParse_decomp true t.length t body segs fin rest heq
      have hchars' : ∀ c ∈ '[' :: body,
          c = '<' ∨ c = '>' ∨ c = '+' ∨ c = '-' ∨ c = '[' ∨ c = ']' := by
        intro c hc
        rcases List.mem_cons.mp hc with hc | hc
        · tauto
        · rcases hchars c hc with h' | h' | h' | h' | h' <;> tauto
      have hdf' : ∀ a, dfFold ('[' :: body) a = a := by
        intro a
        rw [dfFold_cons]
        rw [show dfStep a '[' = (a.1, a.2 + 1) by simp [dfStep]]
        exact hdf a
      have hlb' : countW wLB ('[' :: body) = 1 := by
        rw [countW_cons]
        rw [countW_eq_zero (w := wLB) (l := body) ?_]
        · simp [wLB]
        · intro c hc
          rcases hchars c hc with h' | h' | h' | h' | h' <;> simp [h', wLB]
      split at h
      · exact absurd h (by simp)
      · rename_i hsne
        split at h
        · injection h with h'
          subst h'
          refine ⟨'[' :: body, by rw [hdec]; rfl, by simp, hchars', hdf', hlb', ?_⟩
          refine Or.inl ⟨segs.length, rfl, by rw [segPairs_length], ?_⟩
          cases segs
          · simp at hsne
          · simp
        · injection h with h'
          subst h'
          refine ⟨'[' :: body, by rw [hdec]; rfl, by simp, hchars', hdf', hlb', ?_⟩
          exact Or.inr ⟨rfl, rfl⟩
    · exact absurd h (by simp)
  · exact absurd h (by simp)

/-! ### The rewriting stage preserves the bracket defect -/

theorem dfStep_nonbracket {c : Char} (h1 : c ≠ '[') (h2 : c ≠ ']') (a : Nat × Nat) :
    dfStep a c = a := by
  simp [dfStep, h1, h2]

theorem dfFold_stripPass (l : List Char) : ∀ a, dfFold (stripPass l) a = dfFold l a := by
  induction l with
  | nil => intro a; rfl
  | cons c cs ih =>
    intro a
    rw [stripPass, List.filter_cons]
    split
    · rw [dfFold_cons, dfFold_cons]
      exact ih (dfStep a c)
    · rename_i hc
      have hne : c ≠ '[' ∧ c ≠ ']' := by
        constructor <;> (rintro rfl; simp [bfChars] at hc)
      rw [dfFold_cons, dfStep_nonbracket hne.1 hne.2]
      exact ih a

theorem processBalanced_members {s : List Char} {c1 c2 c : Char}
    (h : c ∈ processBalanced s c1 c2) : c = c1 ∨ c = c2 := by
  rw [processBalanced] at h
  split at h
  · exact Or.inl (List.eq_of_mem_replicate h)
  · split at h
    · exact Or.inr (List.eq_of_mem_replicate h)
    · simp at h

theorem dfFold_nopPass (p : Char → Bool) (c1 c2 : Char)
    (hp : ∀ c, p c = true → c ≠ '[' ∧ c ≠ ']')
    (h1 : c1 ≠ '[' ∧ c1 ≠ ']') (h2 : c2 ≠ '[' ∧ c2 ≠ ']') :
    ∀ (n : Nat) (l : List Char), l.length ≤ n →
      ∀ a, dfFold (nopPass p c1 c2 n l) a = dfFold l a := by
  intro n
  induction n with
  | zero =>
    intro l hlen a
    have : l = [] := List.eq_nil_of_length_eq_zero (Nat.le_zero.mp hlen)
    subst this
    rfl
  | succ n ih =>
    intro l hlen a
    match l with
    | [] => rfl
    | c :: cs =>
      rw [nopPass]
      split
      · rename_i hc
        rw [dfFold_append]
        rw [dfFold_nonbracket (l := processBalanced ((c :: cs).takeWhile p) c1 c2) ?_ a]
        · rw [ih ((c :: cs).dropWhile p)
            (Nat.lt_succ_iff.mp (dropWhile_length_lt (by
              rw [List.takeWhile_cons_of_pos hc]; simp) |>.trans_le hlen)) a]
          conv_rhs => rw [← List.takeWhile_append_dropWhile (p := p) (l := c :: cs)]
          rw [dfFold_append]
          rw [dfFold_nonbracket (l := (c :: cs).takeWhile p)
            (fun x hx => hp x (List.mem_takeWhile_imp hx)) a]
        · intro x hx
          rcases processBalanced_members hx with hx | hx
          · exact hx ▸ h1
          · exact hx ▸ h2
      · rename_i hc
        rw [dfFold_cons, dfFold_cons]
        exact ih cs (by simp only [List.length_cons] at hlen; omega) (dfStep a c)

theorem dfFold_preprocess (l : List Char) : ∀ a, dfFold (preprocess l) a = dfFold l a := by
  intro a
  rw [preprocess]
  rw [dfFold_nopPass isGL '>' '<' (by intro c hc; rcases isGL_cases hc with h | h <;> simp [h])
    (by simp) (by simp) _ _ le_rfl]
  rw [dfFold_nopPass isPM '+' '-' (by intro c hc; rcases isPM_cases hc with h | h <;> simp [h])
    (by simp) (by simp) _ _ le_rfl]
  exact dfFold_stripPass l a

theorem dfFold_clearPass (l : List Char) : ∀ a, dfFold (clearPass l) a = dfFold l a := by
  intro a
  exact rewritePass_foldl clearMatcher dfStep clearMatcher_shrink (by
    intro l' x heq
    obtain ⟨hC, -, pre, hdec, -, -, hdf, -⟩ := clearMatcher_decomp heq
    refine ⟨pre, hdec, fun s => ?_⟩
    rw [hC]
    rw [show ((['C'] : List Char).foldl dfStep s) = s by
      simp [List.foldl, dfStep_nonbracket]]
    exact (hdf s).symm) l.length l le_rfl [] a

theorem scanR_pre_df {run : List Char} (hrun : ∀ c ∈ run, c = '>') :
    ∀ a, dfFold ('[' :: (run ++ [']'])) a = a := by
  intro a
  rw [dfFold_cons]
  rw [show dfStep a '[' = (a.1, a.2 + 1) by simp [dfStep]]
  rw [dfFold_append]
  rw [dfFold_nonbracket (l := run) (fun c hc => by simp [hrun c hc]) _]
  simp [dfFold, dfStep]

theorem scanL_pre_df {run : List Char} (hrun : ∀ c ∈ run, c = '<') :
    ∀ a, dfFold ('[' :: (run ++ [']'])) a = a := by
  intro a
  rw [dfFold_cons]
  rw [show dfStep a '[' = (a.1, a.2 + 1) by simp [dfStep]]
  rw [dfFold_append]
  rw [dfFold_nonbracket (l := run) (fun c hc => by simp [hrun c hc]) _]
  simp [dfFold, dfStep]

theorem dfFold_scanPassR (l : List Char) (m : List Nat) :
    ∀ a, dfFold (scanPassR l m).1 a = dfFold l a := by
  intro a
  exact rewritePass_foldl scanRMatcher dfStep scanRMatcher_shrink (by
    intro l' x heq
    obtain ⟨run, hR, -, -, hrun, hdec⟩ := scanMatcher_decomp (d := '>') (o := 'R') heq
    refine ⟨'[' :: (run ++ [']']), hdec, fun s => ?_⟩
    rw [hR]
    rw [show ((['R'] : List Char).foldl dfStep s) = s by
      simp [List.foldl, dfStep_nonbracket]]
    exact (scanR_pre_df hrun s).symm) l.length l le_rfl m a

theorem dfFold_scanPassL (l : List Char) (m : List Nat) :
    ∀ a, dfFold (scanPassL l m).1 a = dfFold l a := by
  intro a
  exact rewritePass_foldl scanLMatcher dfStep scanLMatcher_shrink (by
    intro l' x heq
    obtain ⟨run, hL, -, -, hrun, hdec⟩ := scanMatcher_decomp (d := '<') (o := 'L') heq
    refine ⟨'[' :: (run ++ [']']), hdec, fun s => ?_⟩
    rw [hL]
    rw [show ((['L'] : List Char).foldl dfStep s) = s by
      simp [List.foldl, dfStep_nonbracket]]
    exact (scanL_pre_df hrun s).symm) l.length l le_rfl m a

theorem dfFold_kzPass (l : List Char) : ∀ a, dfFold (kzPass l) a = dfFold l a := by
  intro a
  exact rewritePass_foldl kzMatcher dfStep kzMatcher_shrink (by
    intro l' x heq
    obtain ⟨hnil, -, pre, hdec, -, hchars⟩ := kzMatcher_decomp heq
    refine ⟨pre, hdec, fun s => ?_⟩
    rw [hnil]
    exact (dfFold_nonbracket (l := pre) (fun c hc => by
      rcases hchars c hc with h' | h' | h' | h' <;> simp [h']) s).symm) l.length l le_rfl [] a

theorem dfFold_stdinPass (l : List Char) : ∀ a, dfFold (stdinPass l) a = dfFold l a := by
  intro a
  exact rewritePass_foldl stdinMatcher dfStep stdinMatcher_shrink (by
    intro l' x heq
    obtain ⟨hcomma, -, pre, hdec, -, hchars⟩ := stdinMatcher_decomp heq
    refine ⟨pre, hdec, fun s => ?_⟩
    rw [hcomma]
    rw [show (([','] : List Char).foldl dfStep s) = s by
      simp [List.foldl, dfStep_nonbracket]]
    exact (dfFold_nonbracket (l := pre) (fun c hc => by
      rcases hchars c hc with h' | h' | h' | h' <;> simp [h']) s).symm) l.length l le_rfl [] a

theorem dfFold_copyPass (l : List Char) : ∀ a, dfFold (copyPass l).1 a = dfFold l a := by
  intro a
  exact rewritePass_foldl copyMatcher dfStep copyMatcher_shrink (by
    intro l' x heq
    obtain ⟨pre, hdec, -, -, hdf, -, hshape⟩ := copyMatcher_decomp heq
    refine ⟨pre, hdec, fun s => ?_⟩
    rcases hshape with ⟨k, hx1, -, -⟩ | ⟨hx1, -⟩
    · rw [hx1]
      rw [show ((List.replicate k 'P' ++ ['C']).foldl dfStep s) = s from ?_]
      · exact (hdf s).symm
      · rw [show ∀ t : List Char, t.foldl dfStep s = dfFold t s from fun t => rfl]
        refine dfFold_nonbracket ?_ s
        intro c hc
        rcases List.mem_append.mp hc with hc | hc
        · simp [List.eq_of_mem_replicate hc]
        · simp only [List.mem_singleton] at hc
          simp [hc]
    · rw [hx1]) l.length l le_rfl [] a

set_option maxHeartbeats 1000000 in
/-- The whole rewriting stage preserves the bracket-defect fold; in
particular an input with an unmatched bracket still has one after
rewriting, and vice versa. -/
theorem dfFold_goofOptimize (raw : List Char) (opt : Bool) :
    ∀ a, dfFold (goofOptimize raw opt).code a = dfFold raw a := by
  intro a
  cases opt with
  | false =>
    simp only [goofOptimize, Bool.false_eq_true, if_false]
    exact dfFold_preprocess raw a
  | true =>
    simp only [goofOptimize, if_true]
    rw [dfFold_copyPass, dfFold_stdinPass, dfFold_kzPass, dfFold_scanPassL,
      dfFold_scanPassR, dfFold_clearPass, dfFold_preprocess]

/-! ### Side-table adequacy

The compiler indexes `scanMap` once per `R`/`L` character and
`copyMap`/`copyMul` once per `P` character of the rewritten code, in
order.  These counts never exceed the final table lengths, so on the
recognizer's output the compiler never panics on a table index. -/

theorem countW_add (w1 w2 : Char → Nat) (l : List Char) :
    countW (fun c => w1 c + w2 c) l = countW w1 l + countW w2 l := by
  induction l with
  | nil => rfl
  | cons c cs ih =>
    rw [countW_cons, countW_cons, countW_cons]
    rw [show countW (fun c => w1 c + w2 c) cs = countW w1 cs + countW w2 cs from ih]
    ring

theorem countW_wRL (l : List Char) : countW wRL l = countW wR l + countW wL l :=
  countW_add wR wL l

theorem stripPass_members {l : List Char} {c : Char} (h : c ∈ stripPass l) : c ∈ bfChars := by
  rw [stripPass] at h
  have := (List.mem_filter.mp h).2
  simpa using this

theorem nopPass_members (p : Char → Bool) (c1 c2 : Char) :
    ∀ (n : Nat) (l : List Char) (c : Char), c ∈ nopPass p c1 c2 n l → c ∈ l ∨ c = c1 ∨ c = c2 := by
  intro n
  induction n with
  | zero =>
    intro l c hc
    match l, hc with
    | [], hc => simp [nopPass] at hc
    | _ :: _, hc => simp [nopPass] at hc
  | succ n ih =>
    intro l c hc
    match l with
    | [] => simp [nopPass] at hc
    | x :: xs =>
      rw [nopPass] at hc
      split at hc
      · rcases List.mem_append.mp hc with hc | hc
        · exact Or.inr (processBalanced_members hc)
        · rcases ih _ c hc with hc | hc
          · exact Or.inl (List.dropWhile_sublist (p := p) (l := x :: xs) |>.mem hc)
          · exact Or.inr hc
      · rcases List.mem_cons.mp hc with hc | hc
        · exact Or.inl (by simp [hc])
        · rcases ih xs c hc with hc | hc
          · exact Or.inl (by simp [hc])
          · exact Or.inr hc

theorem preprocess_members {l : List Char} {c : Char} (h : c ∈ preprocess l) : c ∈ bfChars := by
  rw [preprocess] at h
  rcases nopPass_members isGL '>' '<' _ _ c h with h2 | h2 | h2
  · rcases nopPass_members isPM '+' '-' _ _ c h2 with h3 | h3 | h3
    · exact stripPass_members h3
    · simp [h3, bfChars]
    · simp [h3, bfChars]
  · simp [h2, bfChars]
  · simp [h2, bfChars]

theorem bfChars_no_extended : ∀ c ∈ bfChars, wRL c = 0 ∧ wP c = 0 ∧ wPH c = 0 := by decide

theorem preprocess_wRL (l : List Char) : countW wRL (preprocess l) = 0 :=
  countW_eq_zero fun c hc => (bfChars_no_extended c (preprocess_members hc)).1

theorem preprocess_wP (l : List Char) : countW wP (preprocess l) = 0 :=
  countW_eq_zero fun c hc => (bfChars_no_extended c (preprocess_members hc)).2.1

theorem preprocess_wPH (l : List Char) : countW wPH (preprocess l) = 0 :=
  countW_eq_zero fun c hc => (bfChars_no_extended c (preprocess_members hc)).2.2

theorem clearMatcher_pre_w {w : Char → Nat} (hw : w '[' = 0 ∧ w ']' = 0 ∧ w '+' = 0 ∧
    w '-' = 0 ∧ w 'C' = 0 ∧ w '.' = 0) :
    ∀ l x, clearMatcher l = some x → ∃ pre, l = pre ++ x.2.2 ∧ countW w x.1 = countW w pre := by
  intro l x heq
  obtain ⟨hC, -, pre, hdec, -, hchars, -, -⟩ := clearMatcher_decomp heq
  refine ⟨pre, hdec, ?_⟩
  rw [hC, countW_eq_zero (l := ['C']) (by intro c hc; simp at hc; simp [hc, hw.2.2.2.2.1]),
    countW_eq_zero (l := pre) ?_]
  intro c hc
  rcases hchars c hc with h' | h' | h' | h' | h' | h' <;> simp [h', hw.1, hw.2.1, hw.2.2.1,
    hw.2.2.2.1, hw.2.2.2.2.1, hw.2.2.2.2.2]

theorem clearPass_wRL (l : List Char) : countW wRL (clearPass l) = countW wRL l :=
  rewritePass_countW_eq clearMatcher wRL clearMatcher_shrink
    (clearMatcher_pre_w (by simp [wRL, wR, wL])) l.length l le_rfl []

theorem clearPass_wP (l : List Char) : countW wP (clearPass l) = countW wP l :=
  rewritePass_countW_eq clearMatcher wP clearMatcher_shrink
    (clearMatcher_pre_w (by simp [wP])) l.length l le_rfl []

theorem scanMatcher_pre_w {d o : Char} {w : Char → Nat}
    (hw : w '[' = 0 ∧ w ']' = 0 ∧ w d = 0 ∧ w o = 0) :
    ∀ l x, scanMatcher d o l = some x →
      ∃ pre, l = pre ++ x.2.2 ∧ countW w x.1 = countW w pre := by
  intro l x heq
  obtain ⟨run, hxo, -, -, hrun, hdec⟩ := scanMatcher_decomp heq
  refine ⟨'[' :: (run ++ [']']), hdec, ?_⟩
  rw [hxo, countW_eq_zero (l := [o]) (by intro c hc; simp at hc; simp [hc, hw.2.2.2]),
    countW_eq_zero ?_]
  intro c hc
  rcases List.mem_cons.mp hc with hc | hc
  · rw [hc]; exact hw.1
  · rcases List.mem_append.mp hc with hc | hc
    · rw [hrun c hc]; exact hw.2.2.1
    · rw [List.mem_singleton] at hc
      rw [hc]; exact hw.2.1

theorem scanPassR_wL (l : List Char) (m : List Nat) :
    countW wL (scanPassR l m).1 = countW wL l :=
  rewritePass_countW_eq scanRMatcher wL scanRMatcher_shrink
    (scanMatcher_pre_w (d := '>') (o := 'R') (by simp [wL])) l.length l le_rfl m

theorem scanPassR_wP (l : List Char) (m : List Nat) :
    countW wP (scanPassR l m).1 = countW wP l :=
  rewritePass_countW_eq scanRMatcher wP scanRMatcher_shrink
    (scanMatcher_pre_w (d := '>') (o := 'R') (by simp [wP])) l.length l le_rfl m

theorem scanPassL_wR (l : List Char) (m : List Nat) :
    countW wR (scanPassL l m).1 = countW wR l :=
  rewritePass_countW_eq scanLMatcher wR scanLMatcher_shrink
    (scanMatcher_pre_w (d := '<') (o := 'L') (by simp [wR])) l.length l le_rfl m

theorem scanPassL_wP (l : List Char) (m : List Nat) :
    countW wP (scanPassL l m).1 = countW wP l :=
  rewritePass_countW_eq scanLMatcher wP scanLMatcher_shrink
    (scanMatcher_pre_w (d := '<') (o := 'L') (by simp [wP])) l.length l le_rfl m

theorem scanPassR_maps (l : List Char) (m : List Nat) :
    countW wR (scanPassR l m).1 + m.length ≤ countW wR l + (scanPassR l m).2.length :=
  rewritePass_count_maps scanRMatcher wR scanRMatcher_shrink (by
    intro l' x heq
    obtain ⟨run, hxo, hm, -, -, hdec⟩ := scanMatcher_decomp (d := '>') (o := 'R') heq
    refine ⟨'[' :: (run ++ [']']), hdec, ?_⟩
    rw [hxo, hm]
    have : countW wR ['R'] = 1 := by simp [countW, wR]
    simp only [List.length_singleton]
    omega) l.length l le_rfl m

theorem scanPassL_maps (l : List Char) (m : List Nat) :
    countW wL (scanPassL l m).1 + m.length ≤ countW wL l + (scanPassL l m).2.length :=
  rewritePass_count_maps scanLMatcher wL scanLMatcher_shrink (by
    intro l' x heq
    obtain ⟨run, hxo, hm, -, -, hdec⟩ := scanMatcher_decomp (d := '<') (o := 'L') heq
    refine ⟨'[' :: (run ++ [']']), hdec, ?_⟩
    rw [hxo, hm]
    have : countW wL ['L'] = 1 := by simp [countW, wL]
    simp only [List.length_singleton]
    omega) l.length l le_rfl m

theorem kzPass_w_le (w : Char → Nat) (l : List Char) :
    countW w (kzPass l) ≤ countW w l :=
  rewritePass_countW_le kzMatcher w kzMatcher_shrink (by
    intro l' x heq
    obtain ⟨hnil, -, pre, hdec, -, -⟩ := kzMatcher_decomp heq
    exact ⟨pre, hdec, by rw [hnil]; simp [countW]⟩) l.length l le_rfl []

theorem stdinPass_w_eq {w : Char → Nat} (hw : w '+' = 0 ∧ w '-' = 0 ∧ w 'C' = 0 ∧ w ',' = 0)
    (l : List Char) : countW w (stdinPass l) = countW w l :=
  rewritePass_countW_eq stdinMatcher w stdinMatcher_shrink (by
    intro l' x heq
    obtain ⟨hcomma, -, pre, hdec, -, hchars⟩ := stdinMatcher_decomp heq
    refine ⟨pre, hdec, ?_⟩
    rw [hcomma, countW_eq_zero (l := [',']) (by intro c hc; simp at hc; simp [hc, hw.2.2.2]),
      countW_eq_zero ?_]
    intro c hc
    rcases hchars c hc with h' | h' | h' | h' <;>
      simp [h', hw.1, hw.2.1, hw.2.2.1, hw.2.2.2]) l.length l le_rfl []

theorem copyPass_wRL_le (l : List Char) : countW wRL (copyPass l).1 ≤ countW wRL l :=
  rewritePass_countW_le copyMatcher wRL copyMatcher_shrink (by
    intro l' x heq
    obtain ⟨pre, hdec, -, hchars, -, -, hshape⟩ := copyMatcher_decomp heq
    refine ⟨pre, hdec, ?_⟩
    rcases hshape with ⟨k, hx1, -, -⟩ | ⟨hx1, -⟩
    · rw [hx1, countW_eq_zero ?_]
      · exact Nat.zero_le _
      · intro c hc
        rcases List.mem_append.mp hc with hc | hc
        · simp [List.eq_of_mem_replicate hc, wRL, wR, wL]
        · simp only [List.mem_singleton] at hc
          simp [hc, wRL, wR, wL]
    · rw [hx1]) l.length l le_rfl []

theorem countW_replicate (w : Char → Nat) (k : Nat) (c : Char) :
    countW w (List.replicate k c) = k * w c := by
  induction k with
  | zero => simp [countW]
  | succ k ih =>
    rw [List.replicate_succ, countW_cons, ih]
    ring

theorem copyPass_maps (l : List Char) :
    countW wP (copyPass l).1 ≤ countW wP l + (copyPass l).2.length := by
  have := rewritePass_count_maps copyMatcher wP copyMatcher_shrink (by
    intro l' x heq
    obtain ⟨pre, hdec, -, hchars, -, -, hshape⟩ := copyMatcher_decomp heq
    refine ⟨pre, hdec, ?_⟩
    have hpre0 : countW wP pre = 0 := countW_eq_zero (by
      intro c hc
      rcases hchars c hc with h' | h' | h' | h' | h' | h' <;> simp [h', wP])
    rcases hshape with ⟨k, hx1, hk, -⟩ | ⟨hx1, hm⟩
    · have hC : countW wP ['C'] = 0 := by simp [countW, wP]
      have hP : wP 'P' = 1 := by simp [wP]
      rw [hx1, countW_append, countW_replicate, hP, hC]
      omega
    · rw [hx1, hm]
      simp [hpre0]) l.length l le_rfl []
  simpa using this

/-! ### Compiler stage: bracket errors, invariants, side-table safety -/

theorem countW_sublist (w : Char → Nat) {l1 l2 : List Char} (h : l1.Sublist l2) :
    countW w l1 ≤ countW w l2 := by
  induction h with
  | slnil => exact le_rfl
  | cons c _ ih => rw [countW_cons]; omega
  | cons₂ c _ ih => rw [countW_cons, countW_cons]; omega

theorem countW_dropWhile_le (w : Char → Nat) (p : Char → Bool) (l : List Char) :
    countW w (l.dropWhile p) ≤ countW w l :=
  countW_sublist w (List.dropWhile_sublist (p := p) (l := l))

theorem dfFold_fst_mono (l : List Char) : ∀ a : Nat × Nat, a.1 ≤ (dfFold l a).1 := by
  induction l with
  | nil => intro a; exact le_rfl
  | cons c cs ih =>
    intro a
    rw [dfFold_cons]
    have hstep : a.1 ≤ (dfStep a c).1 := by
      by_cases h1 : c = '['
      · simp [dfStep, h1]
      · by_cases h2 : c = ']'
        · by_cases h3 : a.2 = 0 <;> simp [dfStep, h1, h2, h3]
        · simp [dfStep, h1, h2]
    exact le_trans hstep (ih (dfStep a c))

theorem dfFold_dropRun {c : Char} (h1 : c ≠ '[') (h2 : c ≠ ']') (cs : List Char)
    (a : Nat × Nat) :
    dfFold ((c :: cs).dropWhile fun x => x == c) a = dfFold (c :: cs) a := by
  conv_rhs => rw [← List.takeWhile_append_dropWhile (p := fun x => x == c) (l := c :: cs)]
  rw [dfFold_append, dfFold_nonbracket (l := (c :: cs).takeWhile fun x => x == c)
    (fun x hx => by
      have hxc : x = c := by simpa using List.mem_takeWhile_imp hx
      exact ⟨hxc ▸ h1, hxc ▸ h2⟩) a]

theorem compileLoop_nil (sm : List Nat) (cm : List Int) (cmm : List Nat)
    (n : Nat) (instrs : List Instruction) (stack : List Nat) (off : Int) (si ci : Nat) :
    compileLoop sm cm cmm n [] instrs stack off si ci =
      (if stack.isEmpty then
        .ok (if off ≠ 0 then instrs ++ [⟨.PTR_MOV, off, 0, 0⟩] else instrs)
      else .errOpen) := by
  cases n <;> rfl

theorem compileLoop_cons (sm : List Nat) (cm : List Int) (cmm : List Nat)
    (n : Nat) (c : Char) (cs : List Char) (instrs : List Instruction) (stack : List Nat)
    (off : Int) (si ci : Nat) :
    compileLoop sm cm cmm (n + 1) (c :: cs) instrs stack off si ci =
      (if c = '+' then
        compileLoop sm cm cmm n ((c :: cs).dropWhile fun x => x == '+')
          (instrs ++ [⟨.ADD_SUB, (((c :: cs).takeWhile fun x => x == '+').length : Int), 0, off⟩])
          stack off si ci
      else if c = '-' then
        compileLoop sm cm cmm n ((c :: cs).dropWhile fun x => x == '-')
          (instrs ++ [⟨.ADD_SUB, -(((c :: cs).takeWhile fun x => x == '-').length : Int), 0, off⟩])
          stack off si ci
      else if c = '>' then
        if stack.isEmpty then
          compileLoop sm cm cmm n ((c :: cs).dropWhile fun x => x == '>')
            instrs stack (off + (((c :: cs).takeWhile fun x => x == '>').length : Int)) si ci
        else
          compileLoop sm cm cmm n ((c :: cs).dropWhile fun x => x == '>')
            (instrs ++ [⟨.PTR_MOV, (((c :: cs).takeWhile fun x => x == '>').length : Int), 0, 0⟩])
            stack off si ci
      else if c = '<' then
        if stack.isEmpty then
          compileLoop sm cm cmm n ((c :: cs).dropWhile fun x => x == '<')
            instrs stack (off - (((c :: cs).takeWhile fun x => x == '<').length : Int)) si ci
        else
          compileLoop sm cm cmm n ((c :: cs).dropWhile fun x => x == '<')
            (instrs ++ [⟨.PTR_MOV, -(((c :: cs).takeWhile fun x => x == '<').length : Int), 0, 0⟩])
            stack off si ci
      else if c = '[' then
        if off ≠ 0 then
          compileLoop sm cm cmm n cs
            (instrs ++ [⟨.PTR_MOV, off, 0, 0⟩, ⟨.JMP_ZER, 0, 0, 0⟩])
            ((instrs.length + 1) :: stack) 0 si ci
        else
          compileLoop sm cm cmm n cs (instrs ++ [⟨.JMP_ZER, 0, 0, 0⟩])
            (instrs.length :: stack) 0 si ci
      else if c = ']' then
        match stack with
        | [] => .errClose
        | s :: st =>
          compileLoop sm cm cmm n cs
            ((instrs.set s { instrs.getD s default with Data := (instrs.length : Int) }) ++
              [⟨.JMP_NOT_ZER, (s : Int), 0, 0⟩])
            st off si ci
      else if c = '.' then
        compileLoop sm cm cmm n ((c :: cs).dropWhile fun x => x == '.')
          (instrs ++ [⟨.PUT_CHR, (((c :: cs).takeWhile fun x => x == '.').length : Int), 0, off⟩])
          stack off si ci
      else if c = ',' then
        compileLoop sm cm cmm n cs (instrs ++ [⟨.RAD_CHR, 0, 0, off⟩]) stack off si ci
      else if c = 'C' then
        compileLoop sm cm cmm n cs (instrs ++ [⟨.CLR, 0, 0, off⟩]) stack off si ci
      else if c = 'P' then
        if ci < cm.length ∧ ci < cmm.length then
          compileLoop sm cm cmm n cs
            (instrs ++ [⟨.MUL_CPY, cm.getD ci 0, (cmm.getD ci 0 : Int), off⟩])
            stack off si (ci + 1)
        else .panicC
      else if c = 'R' then
        if si < sm.length then
          compileLoop sm cm cmm n cs
            (instrs ++ (if off ≠ 0 then [⟨.PTR_MOV, off, 0, 0⟩] else []) ++
              [⟨.SCN_RGT, (sm.getD si 0 : Int), 0, 0⟩])
            stack 0 (si + 1) ci
        else .panicC
      else if c = 'L' then
        if si < sm.length then
          compileLoop sm cm cmm n cs
            (instrs ++ (if off ≠ 0 then [⟨.PTR_MOV, off, 0, 0⟩] else []) ++
              [⟨.SCN_LFT, (sm.getD si 0 : Int), 0, 0⟩])
            stack 0 (si + 1) ci
        else .panicC
      else
        compileLoop sm cm cmm n cs (instrs ++ [⟨.ADD_SUB, 0, 0, 0⟩]) stack off si ci) := rfl

theorem compileLoop_errClose (sm : List Nat) (cm : List Int) (cmm : List Nat) :
    ∀ (n : Nat) (l : List Char) (instrs : List Instruction) (stack : List Nat)
      (off : Int) (si ci : Nat),
      l.length ≤ n →
      si + countW wRL l ≤ sm.length →
      ci + countW wP l ≤ cm.length →
      ci + countW wP l ≤ cmm.length →
      0 < (dfFold l (0, stack.length)).1 →
      compileLoop sm cm cmm n l instrs stack off si ci = .errClose := by
  intro n
  induction n with
  | zero =>
    intro l instrs stack off si ci hlen h1 h2 h3 hdf
    have hl : l = [] := List.eq_nil_of_length_eq_zero (Nat.le_zero.mp hlen)
    subst hl
    simp [dfFold] at hdf
  | succ n ih =>
    intro l instrs stack off si ci hlen h1 h2 h3 hdf
    cases l with
    | nil => simp [dfFold] at hdf
    | cons c cs =>
      rw [compileLoop_cons]
      have hlen' : cs.length + 1 ≤ n + 1 := by simpa using hlen
      have runCase : c ≠ '[' → c ≠ ']' →
          ∀ (instrs' : List Instruction) (off' : Int),
          compileLoop sm cm cmm n ((c :: cs).dropWhile fun x => x == c)
            instrs' stack off' si ci = .errClose := by
        intro hb1 hb2 instrs' off'
        refine ih _ _ _ _ _ _ ?_ ?_ ?_ ?_ ?_
        · have := dropRun_lt c cs
          simp only [List.length_cons] at this
          omega
        · have := countW_dropWhile_le wRL (fun x => x == c) (c :: cs)
          omega
        · have := countW_dropWhile_le wP (fun x => x == c) (c :: cs)
          omega
        · have := countW_dropWhile_le wP (fun x => x == c) (c :: cs)
          omega
        · rw [dfFold_dropRun hb1 hb2 cs]
          exact hdf
      have consCase : c ≠ '[' → c ≠ ']' →
          ∀ (instrs' : List Instruction) (off' : Int) (si' ci' : Nat),
          si' + countW wRL cs ≤ sm.length →
          ci' + countW wP cs ≤ cm.length →
          ci' + countW wP cs ≤ cmm.length →
          compileLoop sm cm cmm n cs instrs' stack off' si' ci' = .errClose := by
        intro hb1 hb2 instrs' off' si' ci' k1 k2 k3
        refine ih _ _ _ _ _ _ (by omega) k1 k2 k3 ?_
        rw [dfFold_cons, dfStep_nonbracket hb1 hb2] at hdf
        exact hdf
      by_cases hplus : c = '+'
      · subst hplus; rw [if_pos rfl]; exact runCase (by decide) (by decide) _ _
      rw [if_neg hplus]
      by_cases hminus : c = '-'
      · subst hminus; rw [if_pos rfl]; exact runCase (by decide) (by decide) _ _
      rw [if_neg hminus]
      by_cases hgt : c = '>'
      · subst hgt; rw [if_pos rfl]
        split <;> exact runCase (by decide) (by decide) _ _
      rw [if_neg hgt]
      by_cases hlt : c = '<'
      · subst hlt; rw [if_pos rfl]
        split <;> exact runCase (by decide) (by decide) _ _
      rw [if_neg hlt]
      by_cases hopen : c = '['
      · subst hopen
        rw [if_pos rfl]
        rw [dfFold_cons] at hdf
        rw [show dfStep (0, stack.length) '[' = (0, stack.length + 1) from rfl] at hdf
        have h1' : si + countW wRL cs ≤ sm.length := by
          rw [countW_cons] at h1
          have hz : wRL '[' = 0 := rfl
          omega
        have h2' : ci + countW wP cs ≤ cm.length := by
          rw [countW_cons] at h2
          have hz : wP '[' = 0 := rfl
          omega
        have h3' : ci + countW wP cs ≤ cmm.length := by
          rw [countW_cons] at h3
          have hz : wP '[' = 0 := rfl
          omega
        split
        · refine ih _ _ _ _ _ _ (by omega) h1' h2' h3' ?_
          simp only [List.length_cons]
          exact hdf
        · refine ih _ _ _ _ _ _ (by omega) h1' h2' h3' ?_
          simp only [List.length_cons]
          exact hdf
      rw [if_neg hopen]
      by_cases hclose : c = ']'
      · subst hclose
        rw [if_pos rfl]
        cases stack with
        | nil => rfl
        | cons s st =>
          rw [dfFold_cons] at hdf
          rw [show dfStep (0, (s :: st).length) ']' = (0, st.length) from rfl] at hdf
          show compileLoop sm cm cmm n cs _ st off si ci = .errClose
          refine ih _ _ _ _ _ _ (by omega) ?_ ?_ ?_ hdf
          · rw [countW_cons] at h1
            have hz : wRL ']' = 0 := rfl
            omega
          · rw [countW_cons] at h2
            have hz : wP ']' = 0 := rfl
            omega
          · rw [countW_cons] at h3
            have hz : wP ']' = 0 := rfl
            omega
      rw [if_neg hclose]
      by_cases hdot : c = '.'
      · subst hdot; rw [if_pos rfl]; exact runCase (by decide) (by decide) _ _
      rw [if_neg hdot]
      by_cases hcomma : c = ','
      · subst hcomma; rw [if_pos rfl]
        refine consCase (by decide) (by decide) _ _ si ci ?_ ?_ ?_
        · rw [countW_cons] at h1; have hz : wRL ',' = 0 := rfl; omega
        · rw [countW_cons] at h2; have hz : wP ',' = 0 := rfl; omega
        · rw [countW_cons] at h3; have hz : wP ',' = 0 := rfl; omega
      rw [if_neg hcomma]
      by_cases hC : c = 'C'
      · subst hC; rw [if_pos rfl]
        refine consCase (by decide) (by decide) _ _ si ci ?_ ?_ ?_
        · rw [countW_cons] at h1; have hz : wRL 'C' = 0 := rfl; omega
        · rw [countW_cons] at h2; have hz : wP 'C' = 0 := rfl; omega
        · rw [countW_cons] at h3; have hz : wP 'C' = 0 := rfl; omega
      rw [if_neg hC]
      by_cases hP : c = 'P'
      · subst hP; rw [if_pos rfl]
        rw [countW_cons] at h2 h3
        have hz : wP 'P' = 1 := rfl
        rw [if_pos ⟨by omega, by omega⟩]
        refine consCase (by decide) (by decide) _ _ si (ci + 1) ?_ (by omega) (by omega)
        rw [countW_cons] at h1; have hz2 : wRL 'P' = 0 := rfl; omega
      rw [if_neg hP]
      by_cases hR : c = 'R'
      · subst hR; rw [if_pos rfl]
        rw [countW_cons] at h1
        have hz : wRL 'R' = 1 := rfl
        rw [if_pos (by omega)]
        refine consCase (by decide) (by decide) _ _ (si + 1) ci (by omega) ?_ ?_
        · rw [countW_cons] at h2; have hz2 : wP 'R' = 0 := rfl; omega
        · rw [countW_cons] at h3; have hz2 : wP 'R' = 0 := rfl; omega
      rw [if_neg hR]
      by_cases hL : c = 'L'
      · subst hL; rw [if_pos rfl]
        rw [countW_cons] at h1
        have hz : wRL 'L' = 1 := rfl
        rw [if_pos (by omega)]
        refine consCase (by decide) (by decide) _ _ (si + 1) ci (by omega) ?_ ?_
        · rw [countW_cons] at h2; have hz2 : wP 'L' = 0 := rfl; omega
        · rw [countW_cons] at h3; have hz2 : wP 'L' = 0 := rfl; omega
      rw [if_neg hL]
      refine consCase hopen hclose _ _ si ci ?_ ?_ ?_
      · rw [countW_cons] at h1
        have hz : wRL c = 0 := by
          simp only [wRL, wR, wL]
          rw [if_neg hR, if_neg hL]
        omega
      · rw [countW_cons] at h2
        have hz : wP c = 0 := by
          simp only [wP]
          rw [if_neg hP]
        omega
      · rw [countW_cons] at h3
        have hz : wP c = 0 := by
          simp only [wP]
          rw [if_neg hP]
        omega

theorem compileLoop_errOpen (sm : List Nat) (cm : List Int) (cmm : List Nat) :
    ∀ (n : Nat) (l : List Char) (instrs : List Instruction) (stack : List Nat)
      (off : Int) (si ci : Nat),
      l.length ≤ n →
      si + countW wRL l ≤ sm.length →
      ci + countW wP l ≤ cm.length →
      ci + countW wP l ≤ cmm.length →
      (dfFold l (0, stack.length)).1 = 0 →
      0 < (dfFold l (0, stack.length)).2 →
      compileLoop sm cm cmm n l instrs stack off si ci = .errOpen := by
  intro n
  induction n with
  | zero =>
    intro l instrs stack off si ci hlen h1 h2 h3 hdf1 hdf2
    have hl : l = [] := List.eq_nil_of_length_eq_zero (Nat.le_zero.mp hlen)
    subst hl
    simp only [dfFold, List.foldl_nil] at hdf2
    rw [compileLoop_nil]
    cases stack with
    | nil => simp at hdf2
    | cons s st => simp
  | succ n ih =>
    intro l instrs stack off si ci hlen h1 h2 h3 hdf1 hdf2
    cases l with
    | nil =>
      simp only [dfFold, List.foldl_nil] at hdf2
      rw [compileLoop_nil]
      cases stack with
      | nil => simp at hdf2
      | cons s st => simp
    | cons c cs =>
      rw [compileLoop_cons]
      have hlen' : cs.length + 1 ≤ n + 1 := by simpa using hlen
      have runCase : c ≠ '[' → c ≠ ']' →
          ∀ (instrs' : List Instruction) (off' : Int),
          compileLoop sm cm cmm n ((c :: cs).dropWhile fun x => x == c)
            instrs' stack off' si ci = .errOpen := by
        intro hb1 hb2 instrs' off'
        refine ih _ _ _ _ _ _ ?_ ?_ ?_ ?_ ?_ ?_
        · have := dropRun_lt c cs
          simp only [List.length_cons] at this
          omega
        · have := countW_dropWhile_le wRL (fun x => x == c) (c :: cs)
          omega
        · have := countW_dropWhile_le wP (fun x => x == c) (c :: cs)
          omega
        · have := countW_dropWhile_le wP (fun x => x == c) (c :: cs)
          omega
        · rw [dfFold_dropRun hb1 hb2 cs]
          exact hdf1
        · rw [dfFold_dropRun hb1 hb2 cs]
          exact hdf2
      have consCase : c ≠ '[' → c ≠ ']' →
          ∀ (instrs' : List Instruction) (off' : Int) (si' ci' : Nat),
          si' + countW wRL cs ≤ sm.length →
          ci' + countW wP cs ≤ cm.length →
          ci' + countW wP cs ≤ cmm.length →
          compileLoop sm cm cmm n cs instrs' stack off' si' ci' = .errOpen := by
        intro hb1 hb2 instrs' off' si' ci' k1 k2 k3
        refine ih _ _ _ _ _ _ (by omega) k1 k2 k3 ?_ ?_
        · rw [dfFold_cons, dfStep_nonbracket hb1 hb2] at hdf1
          exact hdf1
        · rw [dfFold_cons, dfStep_nonbracket hb1 hb2] at hdf2
          exact hdf2
      by_cases hplus : c = '+'
      · subst hplus; rw [if_pos rfl]; exact runCase (by decide) (by decide) _ _
      rw [if_neg hplus]
      by_cases hminus : c = '-'
      · subst hminus; rw [if_pos rfl]; exact runCase (by decide) (by decide) _ _
      rw [if_neg hminus]
      by_cases hgt : c = '>'
      · subst hgt; rw [if_pos rfl]
        split <;> exact runCase (by decide) (by decide) _ _
      rw [if_neg hgt]
      by_cases hlt : c = '<'
      · subst hlt; rw [if_pos rfl]
        split <;> exact runCase (by decide) (by decide) _ _
      rw [if_neg hlt]
      by_cases hopen : c = '['
      · subst hopen
        rw [if_pos rfl]
        rw [dfFold_cons] at hdf1 hdf2
        rw [show dfStep (0, stack.length) '[' = (0, stack.length + 1) from rfl] at hdf1 hdf2
        have h1' : si + countW wRL cs ≤ sm.length := by
          rw [countW_cons] at h1
          have hz : wRL '[' = 0 := rfl
          omega
        have h2' : ci + countW wP cs ≤ cm.length := by
          rw [countW_cons] at h2
          have hz : wP '[' = 0 := rfl
          omega
        have h3' : ci + countW wP cs ≤ cmm.length := by
          rw [countW_cons] at h3
          have hz : wP '[' = 0 := rfl
          omega
        split
        · refine ih _ _ _ _ _ _ (by omega) h1' h2' h3' ?_ ?_
          · simp only [List.length_cons]
            exact hdf1
          · simp only [List.length_cons]
            exact hdf2
        · refine ih _ _ _ _ _ _ (by omega) h1' h2' h3' ?_ ?_
          · simp only [List.length_cons]
            exact hdf1
          · simp only [List.length_cons]
            exact hdf2
      rw [if_neg hopen]
      by_cases hclose : c = ']'
      · subst hclose
        rw [if_pos rfl]
        cases stack with
        | nil =>
          exfalso
          simp only [List.length_nil] at hdf1
          rw [dfFold_cons] at hdf1
          rw [show dfStep (0, 0) ']' = (1, 0) from rfl] at hdf1
          have := dfFold_fst_mono cs (1, 0)
          omega
        | cons s st =>
          rw [dfFold_cons] at hdf1 hdf2
          rw [show dfStep (0, (s :: st).length) ']' = (0, st.length) from rfl] at hdf1 hdf2
          show compileLoop sm cm cmm n cs _ st off si ci = .errOpen
          refine ih _ _ _ _ _ _ (by omega) ?_ ?_ ?_ hdf1 hdf2
          · rw [countW_cons] at h1
            have hz : wRL ']' = 0 := rfl
            omega
          · rw [countW_cons] at h2
            have hz : wP ']' = 0 := rfl
            omega
          · rw [countW_cons] at h3
            have hz : wP ']' = 0 := rfl
            omega
      rw [if_neg hclose]
      by_cases hdot : c = '.'
      · subst hdot; rw [if_pos rfl]; exact runCase (by decide) (by decide) _ _
      rw [if_neg hdot]
      by_cases hcomma : c = ','
      · subst hcomma; rw [if_pos rfl]
        refine consCase (by decide) (by decide) _ _ si ci ?_ ?_ ?_
        · rw [countW_cons] at h1; have hz : wRL ',' = 0 := rfl; omega
        · rw [countW_cons] at h2; have hz : wP ',' = 0 := rfl; omega
        · rw [countW_cons] at h3; have hz : wP ',' = 0 := rfl; omega
      rw [if_neg hcomma]
      by_cases hC : c = 'C'
      · subst hC; rw [if_pos rfl]
        refine consCase (by decide) (by decide) _ _ si ci ?_ ?_ ?_
        · rw [countW_cons] at h1; have hz : wRL 'C' = 0 := rfl; omega
        · rw [countW_cons] at h2; have hz : wP 'C' = 0 := rfl; omega
        · rw [countW_cons] at h3; have hz : wP 'C' = 0 := rfl; omega
      rw [if_neg hC]
      by_cases hP : c = 'P'
      · subst hP; rw [if_pos rfl]
        rw [countW_cons] at h2 h3
        have hz : wP 'P' = 1 := rfl
        rw [if_pos ⟨by omega, by omega⟩]
        refine consCase (by decide) (by decide) _ _ si (ci + 1) ?_ (by omega) (by omega)
        rw [countW_cons] at h1; have hz2 : wRL 'P' = 0 := rfl; omega
      rw [if_neg hP]
      by_cases hR : c = 'R'
      · subst hR; rw [if_pos rfl]
        rw [countW_cons] at h1
        have hz : wRL 'R' = 1 := rfl
        rw [if_pos (by omega)]
        refine consCase (by decide) (by decide) _ _ (si + 1) ci (by omega) ?_ ?_
        · rw [countW_cons] at h2; have hz2 : wP 'R' = 0 := rfl; omega
        · rw [countW_cons] at h3; have hz2 : wP 'R' = 0 := rfl; omega
      rw [if_neg hR]
      by_cases hL : c = 'L'
      · subst hL; rw [if_pos rfl]
        rw [countW_cons] at h1
        have hz : wRL 'L' = 1 := rfl
        rw [if_pos (by omega)]
        refine consCase (by decide) (by decide) _ _ (si + 1) ci (by omega) ?_ ?_
        · rw [countW_cons] at h2; have hz2 : wP 'L' = 0 := rfl; omega
        · rw [countW_cons] at h3; have hz2 : wP 'L' = 0 := rfl; omega
      rw [if_neg hL]
      refine consCase hopen hclose _ _ si ci ?_ ?_ ?_
      · rw [countW_cons] at h1
        have hz : wRL c = 0 := by
          simp only [wRL, wR, wL]
          rw [if_neg hR, if_neg hL]
        omega
      · rw [countW_cons] at h2
        have hz : wP c = 0 := by
          simp only [wP]
          rw [if_neg hP]
        omega
      · rw [countW_cons] at h3
        have hz : wP c = 0 := by
          simp only [wP]
          rw [if_neg hP]
        omega

/-! ### Elementwise list access lemmas -/

theorem getD_append_lt {α : Type} : ∀ (l l' : List α) (d : α) (i : Nat), i < l.length →
    (l ++ l').getD i d = l.getD i d := by
  intro l
  induction l with
  | nil => intro l' d i h; simp at h
  | cons a t ih =>
    intro l' d i h
    cases i with
    | zero => rfl
    | succ i =>
      simp only [List.length_cons] at h
      exact ih l' d i (by omega)

theorem getD_append_ge {α : Type} : ∀ (l l' : List α) (d : α) (i : Nat), l.length ≤ i →
    (l ++ l').getD i d = l'.getD (i - l.length) d := by
  intro l
  induction l with
  | nil => intro l' d i h; simp
  | cons a t ih =>
    intro l' d i h
    simp only [List.length_cons] at h
    cases i with
    | zero => omega
    | succ i =>
      calc ((a :: t) ++ l').getD (i + 1) d = (t ++ l').getD i d := rfl
        _ = l'.getD (i - t.length) d := ih l' d i (by omega)
        _ = l'.getD (i + 1 - (a :: t).length) d := by
            simp only [List.length_cons]
            congr 1
            omega

theorem getD_mem {α : Type} : ∀ (l : List α) (d : α) (i : Nat), i < l.length →
    l.getD i d ∈ l := by
  intro l
  induction l with
  | nil => intro d i h; simp at h
  | cons a t ih =>
    intro d i h
    cases i with
    | zero => exact List.mem_cons_self a t
    | succ i =>
      simp only [List.length_cons] at h
      exact List.mem_cons_of_mem a (ih d i (by omega))

theorem getD_set_self : ∀ (l : List Instruction) (s : Nat) (v : Instruction),
    s < l.length → (l.set s v).getD s default = v := by
  intro l
  induction l with
  | nil => intro s v h; simp at h
  | cons a t ih =>
    intro s v h
    cases s with
    | zero => rfl
    | succ s =>
      simp only [List.length_cons] at h
      exact ih s v (by omega)

theorem getD_set_ne : ∀ (l : List Instruction) (s i : Nat) (v : Instruction), i ≠ s →
    (l.set s v).getD i default = l.getD i default := by
  intro l
  induction l with
  | nil => intro s i v h; rfl
  | cons a t ih =>
    intro s i v h
    cases s with
    | zero =>
      cases i with
      | zero => exact absurd rfl h
      | succ i => rfl
    | succ s =>
      cases i with
      | zero => rfl
      | succ i => exact ih s i v (fun hh => h (by rw [hh]))

/-! ### Preservation of the compile-loop invariant -/

theorem plainBoring (k : IKind) (d a o : Int)
    (hk : k = .ADD_SUB ∨ k = .PUT_CHR ∨ k = .RAD_CHR ∨ k = .CLR ∨ k = .MUL_CPY) :
    (⟨k, d, a, o⟩ : Instruction).typ ≠ .JMP_ZER ∧
      (⟨k, d, a, o⟩ : Instruction).typ ≠ .JMP_NOT_ZER ∧ insPlain ⟨k, d, a, o⟩ := by
  have htyp : (⟨k, d, a, o⟩ : Instruction).typ = k := rfl
  have hne : k ≠ .JMP_ZER ∧ k ≠ .JMP_NOT_ZER ∧ k ≠ .PTR_MOV ∧
      k ≠ .SCN_RGT ∧ k ≠ .SCN_LFT := by
    rcases hk with h | h | h | h | h <;> subst h <;>
      exact ⟨by decide, by decide, by decide, by decide, by decide⟩
  refine ⟨?_, ?_, ?_, ?_⟩
  · rw [htyp]; exact hne.1
  · rw [htyp]; exact hne.2.1
  · intro hh
    rw [htyp] at hh
    rcases hh with hh | hh | hh
    · exact absurd hh hne.1
    · exact absurd hh hne.2.1
    · exact absurd hh hne.2.2.1
  · intro hh
    rw [htyp] at hh
    rcases hh with hh | hh
    · exact absurd hh hne.2.2.2.1
    · exact absurd hh hne.2.2.2.2

theorem plainPtr (d : Int) :
    (⟨.PTR_MOV, d, 0, 0⟩ : Instruction).typ ≠ .JMP_ZER ∧
      (⟨.PTR_MOV, d, 0, 0⟩ : Instruction).typ ≠ .JMP_NOT_ZER ∧
      insPlain ⟨.PTR_MOV, d, 0, 0⟩ := by
  have htyp : (⟨.PTR_MOV, d, 0, 0⟩ : Instruction).typ = .PTR_MOV := rfl
  refine ⟨?_, ?_, ?_, ?_⟩
  · rw [htyp]; decide
  · rw [htyp]; decide
  · intro _; rfl
  · intro hh
    rw [htyp] at hh
    rcases hh with hh | hh <;> exact absurd hh (by decide)

theorem plainScn (k : IKind) (hk : k = .SCN_RGT ∨ k = .SCN_LFT) (d : Int) (hd : 1 ≤ d) :
    (⟨k, d, 0, 0⟩ : Instruction).typ ≠ .JMP_ZER ∧
      (⟨k, d, 0, 0⟩ : Instruction).typ ≠ .JMP_NOT_ZER ∧ insPlain ⟨k, d, 0, 0⟩ := by
  have htyp : (⟨k, d, 0, 0⟩ : Instruction).typ = k := rfl
  have hne : k ≠ .JMP_ZER ∧ k ≠ .JMP_NOT_ZER ∧ k ≠ .PTR_MOV := by
    rcases hk with h | h <;> subst h <;> exact ⟨by decide, by decide, by decide⟩
  refine ⟨?_, ?_, ?_, ?_⟩
  · rw [htyp]; exact hne.1
  · rw [htyp]; exact hne.2.1
  · exact fun _ => rfl
  · intro _
    exact hd

theorem compInv_append (instrs : List Instruction) (stack : List Nat)
    (news : List Instruction) (hInv : compInv instrs stack)
    (hnews : ∀ ins ∈ news, ins.typ ≠ .JMP_ZER ∧ ins.typ ≠ .JMP_NOT_ZER ∧ insPlain ins) :
    compInv (instrs ++ news) stack := by
  obtain ⟨hA, hB, hC, hD, hE⟩ := hInv
  refine ⟨?_, ?_, hC, ?_, ?_⟩
  · intro ins hins
    rcases List.mem_append.mp hins with h | h
    · exact hA ins h
    · exact (hnews ins h).2.2
  · intro s hs
    obtain ⟨hs1, hs2⟩ := hB s hs
    refine ⟨by simp only [List.length_append]; omega, ?_⟩
    rw [getD_append_lt _ _ _ _ hs1]
    exact hs2
  · intro i hi htyp hstk
    by_cases hilt : i < instrs.length
    · rw [getD_append_lt _ _ _ _ hilt] at htyp ⊢
      obtain ⟨j, hij, hjlt, hdata, hjtyp, hjdata⟩ := hD i hilt htyp hstk
      refine ⟨j, hij, by simp only [List.length_append]; omega, hdata, ?_, ?_⟩
      · rw [getD_append_lt _ _ _ _ hjlt]; exact hjtyp
      · rw [getD_append_lt _ _ _ _ hjlt]; exact hjdata
    · exfalso
      have hge : instrs.length ≤ i := Nat.le_of_not_lt hilt
      rw [getD_append_ge _ _ _ _ hge] at htyp
      have hlt2 : i - instrs.length < news.length := by
        simp only [List.length_append] at hi; omega
      exact (hnews _ (getD_mem _ _ _ hlt2)).1 htyp
  · intro j hj htyp
    by_cases hjlt : j < instrs.length
    · rw [getD_append_lt _ _ _ _ hjlt] at htyp ⊢
      obtain ⟨i, hij, histk, hdata, hityp, hidata⟩ := hE j hjlt htyp
      have hilt : i < instrs.length := by omega
      refine ⟨i, hij, histk, hdata, ?_, ?_⟩
      · rw [getD_append_lt _ _ _ _ hilt]; exact hityp
      · rw [getD_append_lt _ _ _ _ hilt]; exact hidata
    · exfalso
      have hge : instrs.length ≤ j := Nat.le_of_not_lt hjlt
      rw [getD_append_ge _ _ _ _ hge] at htyp
      have hlt2 : j - instrs.length < news.length := by
        simp only [List.length_append] at hj; omega
      exact (hnews _ (getD_mem _ _ _ hlt2)).2.1 htyp

theorem compInv_push (instrs : List Instruction) (stack : List Nat)
    (hInv : compInv instrs stack) :
    compInv (instrs ++ [⟨.JMP_ZER, 0, 0, 0⟩]) (instrs.length :: stack) := by
  obtain ⟨hA, hB, hC, hD, hE⟩ := hInv
  have hlen : (instrs ++ [(⟨.JMP_ZER, 0, 0, 0⟩ : Instruction)]).length = instrs.length + 1 := by
    simp
  have hgq : (instrs ++ [(⟨.JMP_ZER, 0, 0, 0⟩ : Instruction)]).getD instrs.length default =
      ⟨.JMP_ZER, 0, 0, 0⟩ := by
    rw [getD_append_ge _ _ _ _ le_rfl, Nat.sub_self]
    rfl
  refine ⟨?_, ?_, ?_, ?_, ?_⟩
  · intro ins hins
    rcases List.mem_append.mp hins with h | h
    · exact hA ins h
    · simp only [List.mem_singleton] at h
      subst h
      exact ⟨fun _ => rfl,
        fun hh => by rcases hh with hh | hh <;> exact absurd hh (by decide)⟩
  · intro s hs
    rcases List.mem_cons.mp hs with h | h
    · subst h
      refine ⟨by omega, ?_⟩
      rw [hgq]
    · obtain ⟨hs1, hs2⟩ := hB s h
      refine ⟨by omega, ?_⟩
      rw [getD_append_lt _ _ _ _ hs1]
      exact hs2
  · refine List.pairwise_cons.mpr ⟨?_, hC⟩
    intro b hb
    exact (hB b hb).1
  · intro i hi htyp hstk
    have hine : i ≠ instrs.length := fun hh => hstk (by rw [hh]; exact List.mem_cons_self _ _)
    have hilt : i < instrs.length := by
      rw [hlen] at hi
      omega
    rw [getD_append_lt _ _ _ _ hilt] at htyp ⊢
    have hstk2 : i ∉ stack := fun hh => hstk (List.mem_cons_of_mem _ hh)
    obtain ⟨j, hij, hjlt, hdata, hjtyp, hjdata⟩ := hD i hilt htyp hstk2
    refine ⟨j, hij, by omega, hdata, ?_, ?_⟩
    · rw [getD_append_lt _ _ _ _ hjlt]; exact hjtyp
    · rw [getD_append_lt _ _ _ _ hjlt]; exact hjdata
  · intro j hj htyp
    by_cases hje : j = instrs.length
    · subst hje
      rw [hgq] at htyp
      exact absurd htyp (by decide)
    · have hjlt : j < instrs.length := by
        rw [hlen] at hj
        omega
      rw [getD_append_lt _ _ _ _ hjlt] at htyp ⊢
      obtain ⟨i, hij, histk, hdata, hityp, hidata⟩ := hE j hjlt htyp
      have hilt : i < instrs.length := by omega
      refine ⟨i, hij, ?_, hdata, ?_, ?_⟩
      · intro hh
        rcases List.mem_cons.mp hh with hh | hh
        · omega
        · exact histk hh
      · rw [getD_append_lt _ _ _ _ hilt]; exact hityp
      · rw [getD_append_lt _ _ _ _ hilt]; exact hidata

theorem compInv_pop (instrs : List Instruction) (s : Nat) (st : List Nat)
    (hInv : compInv instrs (s :: st)) :
    compInv ((instrs.set s { instrs.getD s default with Data := (instrs.length : Int) }) ++
      [⟨.JMP_NOT_ZER, (s : Int), 0, 0⟩]) st := by
  obtain ⟨hA, hB, hC, hD, hE⟩ := hInv
  obtain ⟨hslt, hstyp⟩ := hB s (List.mem_cons_self _ _)
  have hstlt : ∀ b ∈ st, b < s := by
    intro b hb
    exact (List.pairwise_cons.mp hC).1 b hb
  have hsetlen : (instrs.set s
      { instrs.getD s default with Data := (instrs.length : Int) }).length = instrs.length := by
    simp
  have hlen : ((instrs.set s
      { instrs.getD s default with Data := (instrs.length : Int) }) ++
      [(⟨.JMP_NOT_ZER, (s : Int), 0, 0⟩ : Instruction)]).length = instrs.length + 1 := by
    simp
  -- access characterization of the new vector
  have hat_s : ((instrs.set s { instrs.getD s default with Data := (instrs.length : Int) }) ++
      [(⟨.JMP_NOT_ZER, (s : Int), 0, 0⟩ : Instruction)]).getD s default =
      { instrs.getD s default with Data := (instrs.length : Int) } := by
    rw [getD_append_lt _ _ _ _ (by rw [hsetlen]; exact hslt)]
    exact getD_set_self _ _ _ hslt
  have hat_end : ((instrs.set s { instrs.getD s default with Data := (instrs.length : Int) }) ++
      [(⟨.JMP_NOT_ZER, (s : Int), 0, 0⟩ : Instruction)]).getD instrs.length default =
      ⟨.JMP_NOT_ZER, (s : Int), 0, 0⟩ := by
    rw [getD_append_ge _ _ _ _ (by rw [hsetlen])]
    rw [hsetlen, Nat.sub_self]
    rfl
  have hat_other : ∀ i, i ≠ s → i < instrs.length →
      ((instrs.set s { instrs.getD s default with Data := (instrs.length : Int) }) ++
        [(⟨.JMP_NOT_ZER, (s : Int), 0, 0⟩ : Instruction)]).getD i default =
        instrs.getD i default := by
    intro i hne hilt
    rw [getD_append_lt _ _ _ _ (by rw [hsetlen]; exact hilt)]
    exact getD_set_ne _ _ _ _ hne
  have hplainS := hA (instrs.getD s default) (getD_mem _ _ _ hslt)
  refine ⟨?_, ?_, (List.pairwise_cons.mp hC).2, ?_, ?_⟩
  · intro ins hins
    rcases List.mem_append.mp hins with h | h
    · rcases List.mem_or_eq_of_mem_set h with h | h
      · exact hA ins h
      · subst h
        constructor
        · intro hh
          rw [show ({ instrs.getD s default with
            Data := (instrs.length : Int) } : Instruction).typ =
            (instrs.getD s default).typ from rfl] at hh
          exact hplainS.1 hh
        · intro hh
          rw [show ({ instrs.getD s default with
            Data := (instrs.length : Int) } : Instruction).typ =
            (instrs.getD s default).typ from rfl] at hh
          rw [hstyp] at hh
          rcases hh with hh | hh <;> exact absurd hh (by decide)
    · simp only [List.mem_singleton] at h
      subst h
      refine ⟨fun _ => rfl, ?_⟩
      intro hh
      rw [show (⟨.JMP_NOT_ZER, (s : Int), 0, 0⟩ : Instruction).typ =
        .JMP_NOT_ZER from rfl] at hh
      rcases hh with hh | hh <;> exact absurd hh (by decide)
  · intro b hb
    obtain ⟨hb1, hb2⟩ := hB b (List.mem_cons_of_mem _ hb)
    have hbs : b ≠ s := by
      have := hstlt b hb
      omega
    refine ⟨by omega, ?_⟩
    rw [hat_other b hbs hb1]
    exact hb2
  · intro i hi htyp hstk
    by_cases hie : i = instrs.length
    · subst hie
      rw [hat_end] at htyp
      rw [show (⟨.JMP_NOT_ZER, (s : Int), 0, 0⟩ : Instruction).typ =
        .JMP_NOT_ZER from rfl] at htyp
      exact absurd htyp (by decide)
    · have hilt : i < instrs.length := by
        rw [hlen] at hi
        omega
      by_cases his : i = s
      · subst his
        refine ⟨instrs.length, hslt, by omega, ?_, ?_, ?_⟩
        · rw [hat_s]
        · rw [hat_end]
        · rw [hat_end]
      · rw [hat_other i his hilt] at htyp
        have histk : i ∉ s :: st := by
          intro hh
          rcases List.mem_cons.mp hh with hh | hh
          · exact his hh
          · exact hstk hh
        obtain ⟨j, hij, hjlt, hdata, hjtyp, hjdata⟩ := hD i hilt htyp histk
        have hjs : j ≠ s := by
          intro hh
          rw [hh, hstyp] at hjtyp
          exact absurd hjtyp (by decide)
        refine ⟨j, hij, by omega, ?_, ?_, ?_⟩
        · rw [hat_other i his hilt]
          exact hdata
        · rw [hat_other j hjs hjlt]
          exact hjtyp
        · rw [hat_other j hjs hjlt]
          exact hjdata
  · intro j hj htyp
    by_cases hje : j = instrs.length
    · subst hje
      refine ⟨s, hslt, ?_, ?_, ?_, ?_⟩
      · intro hh
        exact absurd (hstlt s hh) (lt_irrefl s)
      · rw [hat_end]
      · rw [hat_s]
        exact hstyp
      · rw [hat_s]
    · have hjlt : j < instrs.length := by
        rw [hlen] at hj
        omega
      by_cases hjs : j = s
      · rw [hjs] at htyp
        rw [hat_s] at htyp
        rw [show ({ instrs.getD s default with
            Data := (instrs.length : Int) } : Instruction).typ =
            (instrs.getD s default).typ from rfl] at htyp
        rw [hstyp] at htyp
        exact absurd htyp (by decide)
      · rw [hat_other j hjs hjlt] at htyp
        obtain ⟨i, hij, histk, hdata, hityp, hidata⟩ := hE j hjlt htyp
        have his : i ≠ s := by
          intro hh
          exact histk (by rw [hh]; exact List.mem_cons_self _ _)
        have hilt : i < instrs.length := by omega
        refine ⟨i, hij, ?_, ?_, ?_, ?_⟩
        · intro hh
          exact histk (List.mem_cons_of_mem _ hh)
        · rw [hat_other j hjs hjlt]
          exact hdata
        · rw [hat_other i his hilt]
          exact hityp
        · rw [hat_other i his hilt]
          exact hidata

theorem compInv_final (instrs : List Instruction) (stack : List Nat) (off : Int)
    (out : List Instruction) (hInv : compInv instrs stack)
    (hok : (if stack.isEmpty then
            CompOut.ok (if off ≠ 0 then instrs ++ [⟨.PTR_MOV, off, 0, 0⟩] else instrs)
          else .errOpen) = .ok out) :
    (∀ ins ∈ out, insPlain ins) ∧ jzPaired out ∧ jnzPaired out := by
  cases stack with
  | cons s st =>
    rw [if_neg (by simp)] at hok
    exact absurd hok (by simp)
  | nil =>
    rw [if_pos (show ([] : List Nat).isEmpty = true from rfl)] at hok
    injection hok with h
    have hInv2 : compInv out [] := by
      rw [← h]
      split
      · refine compInv_append _ _ _ hInv ?_
        intro ins hins
        simp only [List.mem_singleton] at hins
        subst hins
        exact plainPtr off
      · exact hInv
    obtain ⟨hA, hB, hC, hD, hE⟩ := hInv2
    refine ⟨hA, ?_, ?_⟩
    · intro i hi htyp
      exact hD i hi htyp (by simp)
    · intro j hj htyp
      obtain ⟨i, hij, -, hdata, hityp, hidata⟩ := hE j hj htyp
      exact ⟨i, hij, hdata, hityp, hidata⟩

theorem compileLoop_ok_inv (sm : List Nat) (cm : List Int) (cmm : List Nat)
    (hsm : ∀ d ∈ sm, 1 ≤ d) :
    ∀ (n : Nat) (l : List Char) (instrs : List Instruction) (stack : List Nat)
      (off : Int) (si ci : Nat) (out : List Instruction),
      compInv instrs stack →
      compileLoop sm cm cmm n l instrs stack off si ci = .ok out →
      (∀ ins ∈ out, insPlain ins) ∧ jzPaired out ∧ jnzPaired out := by
  intro n
  induction n with
  | zero =>
    intro l instrs stack off si ci out hInv hok
    cases l with
    | nil =>
      rw [compileLoop_nil] at hok
      exact compInv_final instrs stack off out hInv hok
    | cons c cs =>
      rw [show compileLoop sm cm cmm 0 (c :: cs) instrs stack off si ci = .panicC from rfl] at hok
      exact absurd hok (by simp)
  | succ n ih =>
    intro l instrs stack off si ci out hInv hok
    cases l with
    | nil =>
      rw [compileLoop_nil] at hok
      exact compInv_final instrs stack off out hInv hok
    | cons c cs =>
      rw [compileLoop_cons] at hok
      by_cases hplus : c = '+'
      · rw [if_pos hplus] at hok
        refine ih _ _ _ _ _ _ _ (compInv_append _ _ _ hInv ?_) hok
        intro ins hins
        simp only [List.mem_singleton] at hins
        subst hins
        exact plainBoring _ _ _ _ (by tauto)
      rw [if_neg hplus] at hok
      by_cases hminus : c = '-'
      · rw [if_pos hminus] at hok
        refine ih _ _ _ _ _ _ _ (compInv_append _ _ _ hInv ?_) hok
        intro ins hins
        simp only [List.mem_singleton] at hins
        subst hins
        exact plainBoring _ _ _ _ (by tauto)
      rw [if_neg hminus] at hok
      by_cases hgt : c = '>'
      · rw [if_pos hgt] at hok
        split at hok
        · exact ih _ _ _ _ _ _ _ hInv hok
        · refine ih _ _ _ _ _ _ _ (compInv_append _ _ _ hInv ?_) hok
          intro ins hins
          simp only [List.mem_singleton] at hins
          subst hins
          exact plainPtr _
      rw [if_neg hgt] at hok
      by_cases hlt : c = '<'
      · rw [if_pos hlt] at hok
        split at hok
        · exact ih _ _ _ _ _ _ _ hInv hok
        · refine ih _ _ _ _ _ _ _ (compInv_append _ _ _ hInv ?_) hok
          intro ins hins
          simp only [List.mem_singleton] at hins
          subst hins
          exact plainPtr _
      rw [if_neg hlt] at hok
      by_cases hopen : c = '['
      · rw [if_pos hopen] at hok
        split at hok
        · have hInv2 := compInv_push (instrs ++ [⟨.PTR_MOV, off, 0, 0⟩]) stack
            (compInv_append _ _ _ hInv (by
              intro ins hins
              simp only [List.mem_singleton] at hins
              subst hins
              exact plainPtr off))
          rw [List.append_assoc, List.singleton_append] at hInv2
          rw [show (instrs ++ [(⟨.PTR_MOV, off, 0, 0⟩ : Instruction)]).length =
            instrs.length + 1 by simp] at hInv2
          exact ih _ _ _ _ _ _ _ hInv2 hok
        · exact ih _ _ _ _ _ _ _ (compInv_push instrs stack hInv) hok
      rw [if_neg hopen] at hok
      by_cases hclose : c = ']'
      · rw [if_pos hclose] at hok
        cases stack with
        | nil => exact absurd hok (by simp)
        | cons s st =>
          exact ih _ _ _ _ _ _ _ (compInv_pop instrs s st hInv) hok
      rw [if_neg hclose] at hok
      by_cases hdot : c = '.'
      · rw [if_pos hdot] at hok
        refine ih _ _ _ _ _ _ _ (compInv_append _ _ _ hInv ?_) hok
        intro ins hins
        simp only [List.mem_singleton] at hins
        subst hins
        exact plainBoring _ _ _ _ (by tauto)
      rw [if_neg hdot] at hok
      by_cases hcomma : c = ','
      · rw [if_pos hcomma] at hok
        refine ih _ _ _ _ _ _ _ (compInv_append _ _ _ hInv ?_) hok
        intro ins hins
        simp only [List.mem_singleton] at hins
        subst hins
        exact plainBoring _ _ _ _ (by tauto)
      rw [if_neg hcomma] at hok
      by_cases hC0 : c = 'C'
      · rw [if_pos hC0] at hok
        refine ih _ _ _ _ _ _ _ (compInv_append _ _ _ hInv ?_) hok
        intro ins hins
        simp only [List.mem_singleton] at hins
        subst hins
        exact plainBoring _ _ _ _ (by tauto)
      rw [if_neg hC0] at hok
      by_cases hP0 : c = 'P'
      · rw [if_pos hP0] at hok
        split at hok
        · refine ih _ _ _ _ _ _ _ (compInv_append _ _ _ hInv ?_) hok
          intro ins hins
          simp only [List.mem_singleton] at hins
          subst hins
          exact plainBoring _ _ _ _ (by tauto)
        · exact absurd hok (by simp)
      rw [if_neg hP0] at hok
      by_cases hR0 : c = 'R'
      · rw [if_pos hR0] at hok
        split at hok
        · rename_i hsi
          have hInv2 : compInv (instrs ++
              ((if off ≠ 0 then [⟨.PTR_MOV, off, 0, 0⟩] else []) ++
                [⟨.SCN_RGT, (sm.getD si 0 : Int), 0, 0⟩])) stack := by
            refine compInv_append _ _ _ hInv ?_
            intro ins hins
            rcases List.mem_append.mp hins with h | h
            · split at h
              · simp only [List.mem_singleton] at h
                subst h
                exact plainPtr off
              · simp at h
            · simp only [List.mem_singleton] at h
              subst h
              refine plainScn _ (Or.inl rfl) _ ?_
              exact_mod_cast hsm _ (getD_mem sm 0 si hsi)
          rw [← List.append_assoc] at hInv2
          exact ih _ _ _ _ _ _ _ hInv2 hok
        · exact absurd hok (by simp)
      rw [if_neg hR0] at hok
      by_cases hL0 : c = 'L'
      · rw [if_pos hL0] at hok
        split at hok
        · rename_i hsi
          have hInv2 : compInv (instrs ++
              ((if off ≠ 0 then [⟨.PTR_MOV, off, 0, 0⟩] else []) ++
                [⟨.SCN_LFT, (sm.getD si 0 : Int), 0, 0⟩])) stack := by
            refine compInv_append _ _ _ hInv ?_
            intro ins hins
            rcases List.mem_append.mp hins with h | h
            · split at h
              · simp only [List.mem_singleton] at h
                subst h
                exact plainPtr off
              · simp at h
            · simp only [List.mem_singleton] at h
              subst h
              refine plainScn _ (Or.inr rfl) _ ?_
              exact_mod_cast hsm _ (getD_mem sm 0 si hsi)
          rw [← List.append_assoc] at hInv2
          exact ih _ _ _ _ _ _ _ hInv2 hok
        · exact absurd hok (by simp)
      rw [if_neg hL0] at hok
      refine ih _ _ _ _ _ _ _ (compInv_append _ _ _ hInv ?_) hok
      intro ins hins
      simp only [List.mem_singleton] at hins
      subst hins
      exact plainBoring _ _ _ _ (by tauto)

theorem compInv_nil : compInv [] [] := by
  refine ⟨?_, ?_, List.Pairwise.nil, ?_, ?_⟩
  · intro ins hins
    simp at hins
  · intro s hs
    simp at hs
  · intro i hi
    simp at hi
  · intro j hj
    simp at hj

theorem goofCompile_inv (o : OptResult) (hsm : ∀ d ∈ o.scanMap, 1 ≤ d)
    (out : List Instruction) (h : goofCompile o = .ok out) :
    (∀ ins ∈ out, insPlain ins) ∧ jzPaired out ∧ jnzPaired out :=
  compileLoop_ok_inv o.scanMap o.copyMap o.copyMul hsm o.code.length o.code [] [] 0 0 0 out
    compInv_nil h

/-! ### Side-table adequacy of the whole rewriting stage -/

theorem chain_wRL (l1 : List Char) (m2 : List Nat)
    (hR : countW wR l1 ≤ m2.length) (hL : countW wL l1 = 0) :
    countW wRL (copyPass (stdinPass (kzPass (scanPassL l1 m2).1))).1 ≤
      (scanPassL l1 m2).2.length := by
  have h4 := scanPassL_maps l1 m2
  have h4R := scanPassL_wR l1 m2
  have h3 := kzPass_w_le wRL (scanPassL l1 m2).1
  have hsplit := countW_wRL (scanPassL l1 m2).1
  have h2 := stdinPass_w_eq (w := wRL) ⟨by decide, by decide, by decide, by decide⟩
    (kzPass (scanPassL l1 m2).1)
  have h1 := copyPass_wRL_le (stdinPass (kzPass (scanPassL l1 m2).1))
  omega

theorem chain_wP (l1 : List Char) (m2 : List Nat) (hP : countW wP l1 = 0) :
    countW wP (copyPass (stdinPass (kzPass (scanPassL l1 m2).1))).1 ≤
      (copyPass (stdinPass (kzPass (scanPassL l1 m2).1))).2.length := by
  have h1 := copyPass_maps (stdinPass (kzPass (scanPassL l1 m2).1))
  have h2 := stdinPass_w_eq (w := wP) ⟨by decide, by decide, by decide, by decide⟩
    (kzPass (scanPassL l1 m2).1)
  have h3 := kzPass_w_le wP (scanPassL l1 m2).1
  have h4 := scanPassL_wP l1 m2
  omega

theorem goofOptimize_adequate (raw : List Char) (opt : Bool) :
    countW wRL (goofOptimize raw opt).code ≤ (goofOptimize raw opt).scanMap.length ∧
    countW wP (goofOptimize raw opt).code ≤ (goofOptimize raw opt).copyMap.length ∧
    countW wP (goofOptimize raw opt).code ≤ (goofOptimize raw opt).copyMul.length := by
  cases opt with
  | false =>
    simp only [goofOptimize, Bool.false_eq_true, if_false]
    refine ⟨?_, ?_, ?_⟩
    · show countW wRL (preprocess raw) ≤ ([] : List Nat).length
      rw [preprocess_wRL]
      exact Nat.zero_le _
    · show countW wP (preprocess raw) ≤ ([] : List Int).length
      rw [preprocess_wP]
      exact Nat.zero_le _
    · show countW wP (preprocess raw) ≤ ([] : List Nat).length
      rw [preprocess_wP]
      exact Nat.zero_le _
  | true =>
    simp only [goofOptimize, if_true]
    have hclr : countW wRL (clearPass (preprocess raw)) = 0 := by
      rw [clearPass_wRL, preprocess_wRL]
    have hsplit := countW_wRL (clearPass (preprocess raw))
    have h5 := scanPassR_maps (clearPass (preprocess raw)) []
    simp only [List.length_nil] at h5
    have h5L := scanPassR_wL (clearPass (preprocess raw)) []
    have hP1 : countW wP (scanPassR (clearPass (preprocess raw)) []).1 = 0 := by
      rw [scanPassR_wP, clearPass_wP, preprocess_wP]
    refine ⟨?_, ?_, ?_⟩
    · exact chain_wRL _ _ (by omega) (by omega)
    · rw [List.length_map]
      exact chain_wP _ _ hP1
    · rw [List.length_map]
      exact chain_wP _ _ hP1

/-! ### Positivity of the recorded scan strides and scan termination -/

theorem scanMatcher_entries_pos (d o : Char) :
    ∀ l x, scanMatcher d o l = some x → ∀ k ∈ x.2.1, 1 ≤ k := by
  intro l x h k hk
  obtain ⟨run, -, hm, hne, -, -⟩ := scanMatcher_decomp h
  rw [hm] at hk
  simp only [List.mem_singleton] at hk
  subst hk
  cases run with
  | nil => exact absurd rfl hne
  | cons a t => simp

theorem scanMap_pos (raw : List Char) (opt : Bool) :
    ∀ k ∈ (goofOptimize raw opt).scanMap, 1 ≤ k := by
  cases opt with
  | false =>
    intro k hk
    simp only [goofOptimize, Bool.false_eq_true, if_false] at hk
    simp at hk
  | true =>
    simp only [goofOptimize, if_true]
    exact rewritePass_maps_pred scanLMatcher (fun k => 1 ≤ k)
      (scanMatcher_entries_pos '<' 'L') _ _ _
      (rewritePass_maps_pred scanRMatcher (fun k => 1 ≤ k)
        (scanMatcher_entries_pos '>' 'R') _ _ _ (by intro k hk; simp at hk))

theorem scanR_some (t : List Nat) (N : Nat) (stride : Int) (hs : 1 ≤ stride) :
    ∀ (fuel : Nat) (p : Int), (N : Int) - p ≤ (fuel : Int) →
      scanR t N stride (fuel + 1) p ≠ none := by
  intro fuel
  induction fuel with
  | zero =>
    intro p hp
    rw [scanR]
    rw [if_pos (by push_cast at hp; omega)]
    simp
  | succ fuel ih =>
    intro p hp
    rw [scanR]
    by_cases h1 : (N : Int) ≤ p
    · rw [if_pos h1]; simp
    · rw [if_neg h1]
      by_cases h2 : p < 0
      · rw [if_pos h2]; simp
      · rw [if_neg h2]
        by_cases h3 : t.getD p.toNat 0 = 0
        · rw [if_pos h3]; simp
        · rw [if_neg h3]
          exact ih (p + stride) (by push_cast at hp ⊢; omega)

theorem scanR_total (t : List Nat) (N : Nat) (stride : Int) (hs : 1 ≤ stride) (p : Int) :
    scanR t N stride (N + 1) p ≠ none := by
  by_cases h0 : p < 0
  · rw [scanR]
    by_cases h1 : (N : Int) ≤ p
    · rw [if_pos h1]; simp
    · rw [if_neg h1, if_pos h0]; simp
  · exact scanR_some t N stride hs N p (by omega)

theorem scanL_some (t : List Nat) (N : Nat) (stride : Int) (hs : 1 ≤ stride) :
    ∀ (fuel : Nat) (p : Int), p ≤ (fuel : Int) →
      scanL t N stride (fuel + 1) p ≠ none := by
  intro fuel
  induction fuel with
  | zero =>
    intro p hp
    rw [scanL]
    rw [if_pos (by push_cast at hp; omega)]
    simp
  | succ fuel ih =>
    intro p hp
    rw [scanL]
    by_cases h1 : p ≤ 0
    · rw [if_pos h1]; simp
    · rw [if_neg h1]
      by_cases h2 : (N : Int) ≤ p
      · rw [if_pos h2]; simp
      · rw [if_neg h2]
        by_cases h3 : t.getD p.toNat 0 = 0
        · rw [if_pos h3]; simp
        · rw [if_neg h3]
          exact ih (p - stride) (by push_cast at hp ⊢; omega)

theorem scanL_total (t : List Nat) (N : Nat) (stride : Int) (hs : 1 ≤ stride) (p : Int) :
    scanL t N stride (N + 1) p ≠ none := by
  by_cases h0 : (N : Int) ≤ p
  · rw [scanL]
    by_cases h1 : p ≤ 0
    · rw [if_pos h1]; simp
    · rw [if_neg h1, if_pos h0]; simp
  · exact scanL_some t N stride hs N p (by omega)

/-! ### Placeholder-position potential across the passes -/

theorem phi_clearPass (l : List Char) :
    countW wLB (clearPass l) + min 1 (countW wPH (clearPass l)) ≤
      countW wLB l + min 1 (countW wPH l) :=
  rewritePass_phi clearMatcher clearMatcher_shrink (by
    intro l' x heq
    obtain ⟨hC, -, pre, hdec, -, -, -, hlb⟩ := clearMatcher_decomp heq
    refine ⟨pre, hdec, ?_⟩
    rw [hC]
    have h1 : countW wLB ['C'] = 0 := by decide
    have h2 : countW wPH ['C'] = 1 := by decide
    omega) l.length l le_rfl []

theorem phi_scanPassR (l : List Char) (m : List Nat) :
    countW wLB (scanPassR l m).1 + min 1 (countW wPH (scanPassR l m).1) ≤
      countW wLB l + min 1 (countW wPH l) :=
  rewritePass_phi scanRMatcher scanRMatcher_shrink (by
    intro l' x heq
    obtain ⟨run, hxo, -, -, -, hdec⟩ := scanMatcher_decomp (d := '>') (o := 'R') heq
    refine ⟨'[' :: (run ++ [']']), hdec, ?_⟩
    rw [hxo]
    have h1 : countW wLB ['R'] = 0 := by decide
    have h2 : countW wPH ['R'] = 1 := by decide
    have h3 : 1 ≤ countW wLB ('[' :: (run ++ [']'])) := by
      rw [countW_cons]
      have : wLB '[' = 1 := rfl
      omega
    omega) l.length l le_rfl m

theorem phi_scanPassL (l : List Char) (m : List Nat) :
    countW wLB (scanPassL l m).1 + min 1 (countW wPH (scanPassL l m).1) ≤
      countW wLB l + min 1 (countW wPH l) :=
  rewritePass_phi scanLMatcher scanLMatcher_shrink (by
    intro l' x heq
    obtain ⟨run, hxo, -, -, -, hdec⟩ := scanMatcher_decomp (d := '<') (o := 'L') heq
    refine ⟨'[' :: (run ++ [']']), hdec, ?_⟩
    rw [hxo]
    have h1 : countW wLB ['L'] = 0 := by decide
    have h2 : countW wPH ['L'] = 1 := by decide
    have h3 : 1 ≤ countW wLB ('[' :: (run ++ [']'])) := by
      rw [countW_cons]
      have : wLB '[' = 1 := rfl
      omega
    omega) l.length l le_rfl m

theorem phi_kzPass (l : List Char) :
    countW wLB (kzPass l) + min 1 (countW wPH (kzPass l)) ≤
      countW wLB l + min 1 (countW wPH l) :=
  rewritePass_phi kzMatcher kzMatcher_shrink (by
    intro l' x heq
    obtain ⟨hnil, -, pre, hdec, -, -⟩ := kzMatcher_decomp heq
    refine ⟨pre, hdec, ?_⟩
    rw [hnil]
    simp [countW]) l.length l le_rfl []

theorem phi_stdinPass (l : List Char) :
    countW wLB (stdinPass l) + min 1 (countW wPH (stdinPass l)) ≤
      countW wLB l + min 1 (countW wPH l) :=
  rewritePass_phi stdinMatcher stdinMatcher_shrink (by
    intro l' x heq
    obtain ⟨hcomma, -, pre, hdec, -, -⟩ := stdinMatcher_decomp heq
    refine ⟨pre, hdec, ?_⟩
    rw [hcomma]
    have h1 : countW wLB [','] = 0 := by decide
    have h2 : countW wPH [','] = 0 := by decide
    omega) l.length l le_rfl []

theorem phi_copyPass (l : List Char) :
    countW wLB (copyPass l).1 + min 1 (countW wPH (copyPass l).1) ≤
      countW wLB l + min 1 (countW wPH l) :=
  rewritePass_phi copyMatcher copyMatcher_shrink (by
    intro l' x heq
    obtain ⟨pre, hdec, -, hchars, -, hLB, hshape⟩ := copyMatcher_decomp heq
    refine ⟨pre, hdec, ?_⟩
    rcases hshape with ⟨k, hx1, -, -⟩ | ⟨hx1, -⟩
    · rw [hx1]
      have h1 : countW wLB (List.replicate k 'P' ++ ['C']) = 0 := by
        refine countW_eq_zero ?_
        intro c hc
        rcases List.mem_append.mp hc with hc | hc
        · simp [List.eq_of_mem_replicate hc, wLB]
        · simp only [List.mem_singleton] at hc
          simp [hc, wLB]
      omega
    · rw [hx1]
      have h2 : countW wPH pre = 0 := by
        refine countW_eq_zero ?_
        intro c hc
        rcases hchars c hc with h' | h' | h' | h' | h' | h' <;> simp [h', wPH]
      omega) l.length l le_rfl []

theorem chain_phi (l0 : List Char) :
    countW wLB (copyPass (stdinPass (kzPass (scanPassL
        (scanPassR (clearPass l0) []).1 (scanPassR (clearPass l0) []).2).1))).1 +
      min 1 (countW wPH (copyPass (stdinPass (kzPass (scanPassL
        (scanPassR (clearPass l0) []).1 (scanPassR (clearPass l0) []).2).1))).1) ≤
      countW wLB l0 + min 1 (countW wPH l0) := by
  have p1 := phi_clearPass l0
  have p2 := phi_scanPassR (clearPass l0) []
  have p3 := phi_scanPassL (scanPassR (clearPass l0) []).1 (scanPassR (clearPass l0) []).2
  have p4 := phi_kzPass (scanPassL
    (scanPassR (clearPass l0) []).1 (scanPassR (clearPass l0) []).2).1
  have p5 := phi_stdinPass (kzPass (scanPassL
    (scanPassR (clearPass l0) []).1 (scanPassR (clearPass l0) []).2).1)
  have p6 := phi_copyPass (stdinPass (kzPass (scanPassL
    (scanPassR (clearPass l0) []).1 (scanPassR (clearPass l0) []).2).1))
  omega

/-! ### Placeholders outside loops -/

theorem phl_no_opener : ∀ (l : List Char), countW wLB l = 0 →
    placeholderInLoop l 0 = false := by
  intro l
  induction l with
  | nil => intro _; rfl
  | cons c cs ih =>
    intro h
    rw [countW_cons] at h
    rw [placeholderInLoop]
    by_cases hc1 : c = '['
    · exfalso
      rw [hc1] at h
      have : wLB '[' = 1 := rfl
      omega
    · rw [if_neg hc1]
      by_cases hc2 : c = ']'
      · rw [if_pos hc2]
        exact ih (by omega)
      · rw [if_neg hc2]
        have hdec : (decide (0 < wPH c ∧ 0 < 0)) = false := by simp
        rw [hdec, Bool.false_or]
        exact ih (by omega)

theorem phl_no_placeholder : ∀ (l : List Char) (d : Nat), countW wPH l = 0 →
    placeholderInLoop l d = false := by
  intro l
  induction l with
  | nil => intro _ _; rfl
  | cons c cs ih =>
    intro d h
    rw [countW_cons] at h
    rw [placeholderInLoop]
    by_cases hc1 : c = '['
    · rw [if_pos hc1]
      exact ih _ (by omega)
    · rw [if_neg hc1]
      by_cases hc2 : c = ']'
      · rw [if_pos hc2]
        exact ih _ (by omega)
      · rw [if_neg hc2]
        have hz : wPH c = 0 := by omega
        have hdec : (decide (0 < wPH c ∧ 0 < d)) = false := by simp [hz]
        rw [hdec, Bool.false_or]
        exact ih _ (by omega)

/-! ### Semantics of the fused copy-loop instruction block -/

theorem byteAdd_lt (v : Nat) (d : Int) : byteAdd v d < 256 := by
  rw [byteAdd]
  have h1 : 0 ≤ ((v : Int) + d) % 256 := Int.emod_nonneg _ (by norm_num)
  have h2 : ((v : Int) + d) % 256 < 256 := Int.emod_lt_of_pos _ (by norm_num)
  omega

theorem byteAdd_id (v : Nat) (hv : v < 256) : byteAdd v 0 = v := by
  rw [byteAdd, add_zero]
  have : (v : Int) % 256 = v := Int.emod_eq_of_lt (by positivity) (by exact_mod_cast hv)
  omega

theorem getD_set_self2 {α : Type} : ∀ (l : List α) (s : Nat) (v d : α),
    s < l.length → (l.set s v).getD s d = v := by
  intro l
  induction l with
  | nil => intro s v d h; simp at h
  | cons a t ih =>
    intro s v d h
    cases s with
    | zero => rfl
    | succ s =>
      simp only [List.length_cons] at h
      exact ih s v d (by omega)

theorem getD_set_ne2 {α : Type} : ∀ (l : List α) (s i : Nat) (v d : α), i ≠ s →
    (l.set s v).getD i d = l.getD i d := by
  intro l
  induction l with
  | nil => intro s i v d h; rfl
  | cons a t ih =>
    intro s i v d h
    cases s with
    | zero =>
      cases i with
      | zero => exact absurd rfl h
      | succ i => rfl
    | succ s =>
      cases i with
      | zero => rfl
      | succ i => exact ih s i v d (fun hh => h (by rw [hh]))

theorem set_getD_eq : ∀ (t : List Nat) (n : Nat), n < t.length →
    t.set n (t.getD n 0) = t := by
  intro t
  induction t with
  | nil => intro n h; simp at h
  | cons a u ih =>
    intro n h
    cases n with
    | zero => rfl
    | succ n =>
      simp only [List.length_cons] at h
      show a :: u.set n (u.getD n 0) = a :: u
      rw [ih n (by omega)]

theorem mulBlock_exec (N : Nat) (p : Int) (v : Nat)
    (hp0 : 0 ≤ p) (hpN : p < (N : Int)) :
    ∀ (pairs : List (Int × Nat)), ∀ (done : List (Int × Nat)) (fuel : Nat)
      (t inp out : List Nat),
      t.length = N →
      (∀ x ∈ t, x < 256) →
      t.getD p.toNat 0 = v →
      (∀ pr ∈ pairs, pr.1 ≠ 0 ∧ 0 ≤ p + pr.1 ∧ p + pr.1 < (N : Int)) →
      pairs.length + 2 ≤ fuel →
      execInstrs (done.map mulIns ++ (pairs.map mulIns ++ [⟨.CLR, 0, 0, 0⟩]))
          N fuel (done.length : Int) ⟨t, p, inp, out⟩ =
        .ok ⟨(mulFold p v pairs t).set p.toNat 0, p, inp, out⟩ := by
  intro pairs
  induction pairs with
  | nil =>
    intro done fuel t inp out hlen hcells hv hpairs hfuel
    simp only [List.map_nil, List.nil_append, List.length_nil] at hfuel ⊢
    cases fuel with
    | zero => omega
    | succ f =>
      rw [execInstrs]
      rw [if_neg (by
        simp only [List.length_append, List.length_map, List.length_cons, List.length_nil]
        push_cast
        omega)]
      rw [if_neg (by omega)]
      have hfetch : (done.map mulIns ++ [(⟨.CLR, 0, 0, 0⟩ : Instruction)]).getD
          ((done.length : Int)).toNat default = ⟨.CLR, 0, 0, 0⟩ := by
        rw [Int.toNat_natCast]
        rw [getD_append_ge _ _ _ _ (by simp)]
        rw [List.length_map, Nat.sub_self]
        rfl
      rw [hfetch]
      dsimp only
      rw [if_pos ⟨by omega, by omega⟩]
      cases f with
      | zero => omega
      | succ f2 =>
        rw [execInstrs]
        rw [if_pos (by
          simp only [List.length_append, List.length_map, List.length_cons, List.length_nil]
          push_cast
          omega)]
        rw [show p + (0 : Int) = p from add_zero p]
        rfl
  | cons pr rest ih =>
    intro done fuel t inp out hlen hcells hv hpairs hfuel
    obtain ⟨hne0, hdl, hdu⟩ := hpairs pr (List.mem_cons_self _ _)
    simp only [List.length_cons] at hfuel
    cases fuel with
    | zero => omega
    | succ f =>
      have hfuel' : rest.length + 2 ≤ f := by omega
      rw [execInstrs]
      rw [if_neg (by
        simp only [List.length_append, List.length_map, List.length_cons]
        push_cast
        omega)]
      rw [if_neg (by omega)]
      have hfetch : (done.map mulIns ++ ((pr :: rest).map mulIns ++
          [(⟨.CLR, 0, 0, 0⟩ : Instruction)])).getD
          ((done.length : Int)).toNat default = mulIns pr := by
        rw [Int.toNat_natCast]
        rw [getD_append_ge _ _ _ _ (by simp)]
        rw [List.length_map, Nat.sub_self]
        rfl
      rw [hfetch]
      dsimp only [mulIns]
      rw [if_pos ⟨by omega, by omega⟩]
      have hreassoc : done.map mulIns ++ ((pr :: rest).map mulIns ++
          [(⟨.CLR, 0, 0, 0⟩ : Instruction)]) =
          (done ++ [pr]).map mulIns ++ (rest.map mulIns ++
          [(⟨.CLR, 0, 0, 0⟩ : Instruction)]) := by
        simp
      have hidx : (done.length : Int) + 1 = (((done ++ [pr]).length : Nat) : Int) := by
        simp only [List.length_append, List.length_cons, List.length_nil]
        push_cast
        omega
      by_cases hz : v = 0
      · rw [if_pos (by rw [add_zero, hv]; exact hz)]
        rw [hreassoc, hidx]
        rw [ih (done ++ [pr]) f t inp out hlen hcells hv
          (fun q hq => hpairs q (List.mem_cons_of_mem _ hq)) hfuel']
        rw [mulFold]
        subst hz
        rw [show ((0 : Nat) : Int) * ((pr.2 : Nat) : Int) = 0 by simp]
        rw [byteAdd_id (t.getD (p + pr.1).toNat 0) (hcells _ (getD_mem _ _ _ (by omega)))]
        rw [set_getD_eq t (p + pr.1).toNat (by omega)]
      · rw [if_neg (by rw [add_zero, hv]; exact hz)]
        rw [if_pos ⟨by omega, by omega⟩]
        rw [show p + pr.1 + 0 = p + pr.1 from add_zero _]
        rw [show p + (0 : Int) = p from add_zero p]
        rw [hv]
        rw [hreassoc, hidx]
        have hmemlt : (p + pr.1).toNat < t.length := by omega
        have hplt : p.toNat < t.length := by omega
        have hpne : p.toNat ≠ (p + pr.1).toNat := by omega
        rw [ih (done ++ [pr]) f
          (t.set (p + pr.1).toNat (byteAdd (t.getD (p + pr.1).toNat 0) ((v : Int) * (pr.2 : Int))))
          inp out
          (by rw [List.length_set]; exact hlen)
          (by
            intro x hx
            rcases List.mem_or_eq_of_mem_set hx with hx | hx
            · exact hcells x hx
            · rw [hx]; exact byteAdd_lt _ _)
          (by rw [getD_set_ne2 _ _ _ _ _ hpne]; exact hv)
          (fun q hq => hpairs q (List.mem_cons_of_mem _ hq)) hfuel']
        rw [mulFold]

/-! ## Claims -/

set_option maxRecDepth 100000 in
/-- Claim C1 (code bug): the idiom recognizer is not semantics
preserving.  On the program `+>+<[>][-]` the known-zero elimination
`[RL]+C` deletes the fused scan loop together with the dead clear,
removing the scan's cursor motion: with the recognizer enabled the
final cursor is 0, with it disabled it is 2 (the tapes agree), while
the claim asserts the two runs end with an identical cursor. -/
theorem c1_scan_elimination_changes_cursor :
    outcomePtr 99 (goofExecute 1000 true "+>+<[>][-]".toList (List.replicate 16 0) 0 []) = 0 ∧
    outcomePtr 99 (goofExecute 1000 false "+>+<[>][-]".toList (List.replicate 16 0) 0 []) = 2 := by
  constructor <;> decide

set_option maxRecDepth 10000 in
/-- Claim C2 (counterexample): the balanced copy loop `[->+<+>>+<<]`
has zero net motion and is fused (segments at cumulative offsets
1, 0, 2, multipliers 1, 1, 1), but its second copy targets the source
cell itself, so the third copy reads an already-doubled source: on a
fresh 30000-byte tape after `+`, the claim predicts
tape[2] = source x multiplier = 1, yet execution leaves tape[2] = 2. -/
theorem c2_counterexample :
    (outcomeTape [] (goofExecute 1000 true "+[->+<+>>+<<]".toList
      (List.replicate 30000 0) 0 [])).getD 2 0 = 2 ∧
    ¬ (outcomeTape [] (goofExecute 1000 true "+[->+<+>>+<<]".toList
      (List.replicate 30000 0) 0 [])).getD 2 0 = 1 * 1 := by
  rw [← goofExecuteN_eq]
  constructor <;> decide

/-- Claim C3 (code bug): `PUT` does not write raw bytes.  The cell is
converted with Go `string(cell)`, which UTF-8 encodes the code point,
so on the program `-.` the sink receives the two bytes 0xC3 0xBF
rather than the single byte 0xFF the claim requires; the cell itself
does hold 255. -/
theorem c3_put_reencodes :
    goofExecute 1000 true "-.".toList (List.replicate 4 0) 0 [] =
      .ok [255, 0, 0, 0] 0 [] [195, 191] ∧
    outcomeOut (goofExecute 1000 true "-.".toList (List.replicate 4 0) 0 []) ≠ [255] := by
  constructor <;> decide

/-- Claim C4 (code bug): the interpreter's `RAD_CHR` case is commented
out in the source (`TODO: Fix this`), so an executed `,` reads nothing
and stores nothing: on the program `,` with one input byte 0x41
available, the byte is not consumed and the cell stays 0, while the
claim requires one byte read and stored into the cell. -/
theorem c4_get_is_noop :
    goofExecute 1000 true ",".toList (List.replicate 4 0) 0 [65] =
      .ok [0, 0, 0, 0] 0 [65] [] ∧
    (outcomeTape [] (goofExecute 1000 true ",".toList
      (List.replicate 4 0) 0 [65])).getD 0 0 ≠ 65 := by
  constructor <;> decide

/-- Claim C8 (counterexample): an out-of-range data access does stop
the run with a fatal runtime panic, but the panic is not recovered, so
the host process dies and the session does not continue: in a session
of two lines, the first (`<+`, an ADD at offset -1 from cursor 0)
kills the process and the second line is never executed, contradicting
the claim that the host session continues. -/
theorem c8_counterexample :
    sessionRun 1000 true ["<+".toList, "+".toList] (List.replicate 4 0) 0 =
      [.panicked [0, 0, 0, 0] 0 [] []] ∧
    (sessionRun 1000 true ["<+".toList, "+".toList] (List.replicate 4 0) 0).length ≠ 2 := by
  constructor <;> decide

/-- Claim C9 (counterexample): on the input `[[-]>+<]` the clear-loop
pass rewrites the inner `[-]` to `C` inside the still-present outer
loop, so the rewritten string `[C>+<]` has a placeholder strictly
inside a loop body, while the claim asserts placeholders occur outside
any loop body. -/
theorem c9_counterexample :
    (goofOptimize "[[-]>+<]".toList true).code = "[C>+<]".toList ∧
    placeholderInLoop (goofOptimize "[[-]>+<]".toList true).code 0 = true := by
  constructor <;> decide

/-- Claim C5 (confirmed): on an input whose normalized form has an
unmatched bracket, the compile+execute cycle aborts with the
distinguishing error — code 1 when some `]` is unmatched (reported
during compilation), code 2 when only `[`s are left unmatched at the
end — before any instruction executes, returning the tape and cursor
unchanged and producing no output. -/
theorem c5_bracket_errors (fuel : Nat) (opt : Bool) (raw : List Char)
    (tape : List Nat) (ptr : Int) (inp : List Nat)
    (h : defect raw ≠ (0, 0)) :
    goofExecute fuel opt raw tape ptr inp =
      .err (if (defect raw).1 ≠ 0 then 1 else 2) tape ptr [] := by
  have hadq := goofOptimize_adequate raw opt
  have hdf := dfFold_goofOptimize raw opt (0, 0)
  by_cases h1 : (defect raw).1 = 0
  · have h2 : (defect raw).2 ≠ 0 := by
      intro hh
      exact h (Prod.ext_iff.mpr ⟨h1, hh⟩)
    have hcomp : goofCompile (goofOptimize raw opt) = .errOpen := by
      refine compileLoop_errOpen _ _ _ _ _ _ _ _ _ _ le_rfl
        (by simpa using hadq.1) (by simpa using hadq.2.1) (by simpa using hadq.2.2) ?_ ?_
      · simp only [List.length_nil]
        rw [hdf]
        exact h1
      · simp only [List.length_nil]
        rw [hdf]
        show 0 < (defect raw).2
        omega
    simp only [goofExecute]
    rw [hcomp, if_neg (not_not_intro h1)]
  · have hcomp : goofCompile (goofOptimize raw opt) = .errClose := by
      refine compileLoop_errClose _ _ _ _ _ _ _ _ _ _ le_rfl
        (by simpa using hadq.1) (by simpa using hadq.2.1) (by simpa using hadq.2.2) ?_
      simp only [List.length_nil]
      rw [hdf]
      show 0 < (defect raw).1
      omega
    simp only [goofExecute]
    rw [hcomp, if_pos h1]

theorem c5_witness :
    defect "[+".toList ≠ (0, 0) ∧
    goofExecute 10 true "[+".toList [0, 0] 0 [] =
      .err (if (defect "[+".toList).1 ≠ 0 then 1 else 2) [0, 0] 0 [] :=
  ⟨by decide, c5_bracket_errors 10 true "[+".toList [0, 0] 0 [] (by decide)⟩

/-- Claim C6 (confirmed): after a successful compilation, every
`JMP_ZER` instruction's `Data` is the index of a `JMP_NOT_ZER` further
right whose `Data` points back to it, and every `JMP_NOT_ZER`'s `Data`
is the index of a `JMP_ZER` further left whose `Data` points back; the
mutual back-pointers make each pairing unique in both directions. -/
theorem c6_branch_pairing (raw : List Char) (opt : Bool) (instrs : List Instruction)
    (h : goofCompile (goofOptimize raw opt) = .ok instrs) :
    jzPaired instrs ∧ jnzPaired instrs :=
  (goofCompile_inv _ (scanMap_pos raw opt) instrs h).2

theorem c6_witness :
    jzPaired [⟨.JMP_ZER, 2, 0, 0⟩, ⟨.RAD_CHR, 0, 0, 0⟩, ⟨.JMP_NOT_ZER, 0, 0, 0⟩] ∧
    jnzPaired [⟨.JMP_ZER, 2, 0, 0⟩, ⟨.RAD_CHR, 0, 0, 0⟩, ⟨.JMP_NOT_ZER, 0, 0, 0⟩] :=
  c6_branch_pairing "[,]".toList true
    [⟨.JMP_ZER, 2, 0, 0⟩, ⟨.RAD_CHR, 0, 0, 0⟩, ⟨.JMP_NOT_ZER, 0, 0, 0⟩] (by decide)

/-- Claim C7 (confirmed): every instruction the compiler emits whose
kind is `JMP_ZER`, `JMP_NOT_ZER` or `PTR_MOV` carries `Offset = 0`, so
every branch guard the interpreter evaluates reads the cell at the
bare cursor. -/
theorem c7_branch_offsets_zero (raw : List Char) (opt : Bool) (instrs : List Instruction)
    (h : goofCompile (goofOptimize raw opt) = .ok instrs) :
    branchOffZero instrs :=
  fun ins hins hk => ((goofCompile_inv _ (scanMap_pos raw opt) instrs h).1 ins hins).1 hk

theorem c7_witness :
    branchOffZero [⟨.JMP_ZER, 2, 0, 0⟩, ⟨.PUT_CHR, 1, 0, 0⟩, ⟨.JMP_NOT_ZER, 0, 0, 0⟩] :=
  c7_branch_offsets_zero "[.]".toList false
    [⟨.JMP_ZER, 2, 0, 0⟩, ⟨.PUT_CHR, 1, 0, 0⟩, ⟨.JMP_NOT_ZER, 0, 0, 0⟩] (by decide)

/-- Claim C10 (confirmed): every scan instruction the compiler emits
from the recognizer's side table carries a stride of at least 1, and
with such a stride the interpreter's scan loops always answer within
the fuel `N + 1` the dispatcher allots them (the cursor moves
strictly on each iteration until it leaves `[0, N)` or reaches a zero
cell), for every tape, memory size and starting cursor. -/
theorem c10_scan_termination (raw : List Char) (instrs : List Instruction)
    (h : goofCompile (goofOptimize raw true) = .ok instrs) :
    scanStridesPos instrs ∧
    ∀ ins ∈ instrs, (ins.typ = .SCN_RGT ∨ ins.typ = .SCN_LFT) →
      ∀ (t : List Nat) (N : Nat) (p : Int),
        scanR t N ins.Data (N + 1) p ≠ none ∧ scanL t N ins.Data (N + 1) p ≠ none := by
  have hinv := goofCompile_inv _ (scanMap_pos raw true) instrs h
  have hpos : scanStridesPos instrs := fun ins hins hk => (hinv.1 ins hins).2 hk
  refine ⟨hpos, ?_⟩
  intro ins hins hk t N p
  exact ⟨scanR_total t N ins.Data (hpos ins hins hk) p,
    scanL_total t N ins.Data (hpos ins hins hk) p⟩

theorem c10_witness :
    scanStridesPos [⟨.ADD_SUB, 1, 0, 0⟩, ⟨.SCN_RGT, 1, 0, 0⟩] ∧
    ∀ ins ∈ [(⟨.ADD_SUB, 1, 0, 0⟩ : Instruction), ⟨.SCN_RGT, 1, 0, 0⟩],
      (ins.typ = .SCN_RGT ∨ ins.typ = .SCN_LFT) →
      ∀ (t : List Nat) (N : Nat) (p : Int),
        scanR t N ins.Data (N + 1) p ≠ none ∧ scanL t N ins.Data (N + 1) p ≠ none :=
  c10_scan_termination "+[>]".toList
    [⟨.ADD_SUB, 1, 0, 0⟩, ⟨.SCN_RGT, 1, 0, 0⟩] (by decide)

/-- Claim C8 (amended): whenever a data access — an `ADD_SUB`, `CLR`
or `PUT_CHR` at its offset, a branch guard, or a `MUL_CPY` source
read — would address a cell outside `[0, N)`, the run stops with an
unrecovered Go runtime panic carrying the tape in its current state;
the panic kills the process, so after a panicking line the session
executes no further lines (it terminates rather than continuing). -/
theorem c8_oob_panics :
    (∀ (instrs : List Instruction) (N fuel : Nat) (i : Int) (s : MachState),
      0 ≤ i → i < (instrs.length : Int) →
      ((instrs.getD i.toNat default).typ = .ADD_SUB ∨
       (instrs.getD i.toNat default).typ = .CLR ∨
       (instrs.getD i.toNat default).typ = .PUT_CHR ∨
       (instrs.getD i.toNat default).typ = .JMP_ZER ∨
       (instrs.getD i.toNat default).typ = .JMP_NOT_ZER ∨
       (instrs.getD i.toNat default).typ = .MUL_CPY) →
      ¬ (0 ≤ s.ptr + (instrs.getD i.toNat default).Offset ∧
         s.ptr + (instrs.getD i.toNat default).Offset < (N : Int)) →
      execInstrs instrs N (fuel + 1) i s = .panicked s) ∧
    (∀ (fuel : Nat) (opt : Bool) (line : List Char) (rest : List (List Char))
       (tape : List Nat) (ptr : Int) (t : List Nat) (p : Int) (inp out : List Nat),
      goofExecute fuel opt line tape ptr [] = .panicked t p inp out →
      sessionRun fuel opt (line :: rest) tape ptr = [.panicked t p inp out]) := by
  constructor
  · intro instrs N fuel i s hi hlt htyp hoob
    have h1 : ¬ ((instrs.length : Int) ≤ i) := not_le.mpr hlt
    have h2 : ¬ (i < 0) := not_lt.mpr hi
    rw [execInstrs]
    rw [if_neg h1, if_neg h2]
    rcases htyp with h | h | h | h | h | h <;> rw [h] <;> dsimp only <;> rw [if_neg hoob]
  · intro fuel opt line rest tape ptr t p inp out hpan
    rw [sessionRun, hpan]

theorem c8_witness :
    execInstrs [⟨.ADD_SUB, 1, 0, 5⟩] 4 1 0 ⟨[0, 0, 0, 0], 0, [], []⟩ =
      .panicked ⟨[0, 0, 0, 0], 0, [], []⟩ ∧
    sessionRun 9 true ["<+".toList, "+".toList] [0, 0] 0 = [.panicked [0, 0] 0 [] []] :=
  ⟨c8_oob_panics.1 [⟨.ADD_SUB, 1, 0, 5⟩] 4 0 0 ⟨[0, 0, 0, 0], 0, [], []⟩
      (by decide) (by decide) (by decide) (by decide),
   c8_oob_panics.2 9 true "<+".toList ["+".toList] [0, 0] 0 [0, 0] 0 [] [] (by decide)⟩

/-- Claim C9 (amended): every placeholder replaces a whole loop (or a
loop-free segment), so a placeholder can only end up inside a loop
that was nested around the rewritten one.  When the normalized input
has at most one `[`, the rewritten string has no placeholder inside
any bracket pair: each pass trades the only opener for its
placeholders, so a placeholder and an enclosing `[` cannot both
survive. -/
theorem c9_placeholders (raw : List Char)
    (h : countW wLB (preprocess raw) ≤ 1) :
    placeholderInLoop (goofOptimize raw true).code 0 = false := by
  have hphi : countW wLB (goofOptimize raw true).code +
      min 1 (countW wPH (goofOptimize raw true).code) ≤ 1 := by
    simp only [goofOptimize, if_true]
    have hchain := chain_phi (preprocess raw)
    have h0 : countW wPH (preprocess raw) = 0 := preprocess_wPH raw
    omega
  rcases Nat.eq_zero_or_pos (countW wPH (goofOptimize raw true).code) with hz | hpos
  · exact phl_no_placeholder _ 0 hz
  · refine phl_no_opener _ ?_
    omega

theorem c9_witness :
    countW wLB (preprocess "[-]>+.".toList) ≤ 1 ∧
    placeholderInLoop (goofOptimize "[-]>+.".toList true).code 0 = false :=
  ⟨by decide, c9_placeholders "[-]>+.".toList (by decide)⟩

/-- Claim C2 (amended): for a fused copy/multiply loop all of whose
recorded target offsets are nonzero (the target cells are distinct
from the source), the emitted `MUL_CPY` block followed by the trailing
`CLR` adds `source x multiplier` into each target modulo 256, in
segment order, and zeroes the source exactly once at the very end;
the cursor is unchanged.  The claim's concrete seeds hold: on a fresh
30000-byte tape `++++[->+<]` gives tape 0 = 0, tape 1 = 4, cursor 0,
and `+++[->+++<]` gives tape 0 = 0, tape 1 = 9, cursor 0. -/
theorem c2_copy_loop_semantics :
    (∀ (pairs : List (Int × Nat)) (t : List Nat) (p : Int) (inp out : List Nat) (fuel : Nat),
      0 ≤ p → p < (t.length : Int) →
      (∀ x ∈ t, x < 256) →
      (∀ pr ∈ pairs, pr.1 ≠ 0 ∧ 0 ≤ p + pr.1 ∧ p + pr.1 < (t.length : Int)) →
      pairs.length + 2 ≤ fuel →
      execInstrs (pairs.map mulIns ++ [⟨.CLR, 0, 0, 0⟩]) t.length fuel 0 ⟨t, p, inp, out⟩ =
        .ok ⟨(mulFold p (t.getD p.toNat 0) pairs t).set p.toNat 0, p, inp, out⟩) ∧
    ((outcomeTape [] (goofExecute 100 true "++++[->+<]".toList
        (List.replicate 30000 0) 0 [])).getD 0 0 = 0 ∧
      (outcomeTape [] (goofExecute 100 true "++++[->+<]".toList
        (List.replicate 30000 0) 0 [])).getD 1 0 = 4 ∧
      outcomePtr 99 (goofExecute 100 true "++++[->+<]".toList
        (List.replicate 30000 0) 0 []) = 0) ∧
    ((outcomeTape [] (goofExecute 100 true "+++[->+++<]".toList
        (List.replicate 30000 0) 0 [])).getD 0 0 = 0 ∧
      (outcomeTape [] (goofExecute 100 true "+++[->+++<]".toList
        (List.replicate 30000 0) 0 [])).getD 1 0 = 9 ∧
      outcomePtr 99 (goofExecute 100 true "+++[->+++<]".toList
        (List.replicate 30000 0) 0 []) = 0) := by
  refine ⟨?_, ?_, ?_⟩
  · intro pairs t p inp out fuel hp0 hpN hcells hpairs hfuel
    have h := mulBlock_exec t.length p (t.getD p.toNat 0) hp0 hpN pairs [] fuel t inp out
      rfl hcells rfl hpairs hfuel
    simpa using h
  · refine ⟨?_, ?_, ?_⟩ <;> (rw [← goofExecuteN_eq]; decide)
  · refine ⟨?_, ?_, ?_⟩ <;> (rw [← goofExecuteN_eq]; decide)

theorem c2_witness :
    execInstrs ([((1 : Int), (1 : Nat))].map mulIns ++ [⟨.CLR, 0, 0, 0⟩]) 2 3 0
        ⟨[4, 0], 0, [], []⟩ =
      .ok ⟨[0, 4], 0, [], []⟩ :=
  c2_copy_loop_semantics.1 [(1, 1)] [4, 0] 0 [] [] 3
    (by decide) (by decide) (by decide) (by decide) (by decide)

end Goof
